import Mathlib

/-!
Verification of the DataSentinel normalization pipeline
(`services/backend/app/routes/normalization.py`) and profiling/drift engine
(`services/backend/app/routes/profiling.py`).

The pandas/numpy data model is shallowly embedded:

* a cell value (`Val`) is a rational number, a string, or missing
  (pandas `NaN`/`NaT`);
* a column (`Col`) is a name, a dtype tag and a list of values;
* a dataframe (`Df`) is a list of columns.

Floating-point arithmetic is idealized as rational arithmetic.  Library
calls whose results are transcendental (`scipy.stats.normaltest`,
`scipy.stats.ks_2samp`, `np.log`) are abstracted as function parameters of
the embedded operations; every theorem below holds for all instantiations
of those parameters (with the stated hypotheses capturing documented
behaviour of the library function where needed).
-/

namespace DataSentinel

/-- A single cell of a pandas column: a (float/int) number, a string, or a
missing value (`NaN` / `NaT` / `None`). -/
inductive Val where
  | num (q : ℚ)
  | str (s : String)
  | missing
deriving DecidableEq

/-- The dtype of a pandas column, restricted to the dtypes that occur in
this pipeline: `float64`, `int64`, `object` (text) and `datetime64`. -/
inductive Dtype where
  | float
  | int
  | object
  | datetime
deriving DecidableEq

/-- `np.number` membership: float64 and int64 columns.  (`datetime64` and
`object` are not numpy numbers.)  In this model the set coincides with the
`["float64", "int64"]` selection used by `scale_numerical`. -/
def Dtype.isNumeric : Dtype → Bool
  | .float => true
  | .int => true
  | _ => false

/-- A named pandas column. -/
structure Col where
  name : String
  dtype : Dtype
  values : List Val
deriving DecidableEq

/-- A pandas DataFrame: an ordered list of named columns. -/
abbrev Df := List Col

/-- Number of rows (`len(df)`); columns are assumed uniform in length. -/
def nrows (df : Df) : ℕ :=
  match df with
  | [] => 0
  | c :: _ => c.values.length

/-- The column names of a dataframe, in order. -/
def names (df : Df) : List String := df.map (·.name)

/-- Look a column up by name (first match, as pandas `df[name]` with
unique column names). -/
def findCol (df : Df) (n : String) : Option Col :=
  df.find? (fun c => c.name == n)

/-- The numeric (`np.number`) columns, in order
(`df.select_dtypes(include=[np.number])`). -/
def numericCols (df : Df) : Df := df.filter (fun c => c.dtype.isNumeric)

/-- The present (non-missing) numeric values of a column, in order
(`series.dropna()` for a numeric series). -/
def present (vs : List Val) : List ℚ :=
  vs.filterMap (fun v => match v with | .num q => some q | _ => none)

/-- Count of missing entries (`series.isnull().sum()`). -/
def missingCount (vs : List Val) : ℕ := vs.countP (fun v => v == .missing)

/-- Well-formedness: every value of a float/int column is a number or
missing (pandas numeric dtypes cannot hold strings). -/
def wfNumeric (df : Df) : Bool :=
  df.all (fun c =>
    !c.dtype.isNumeric ||
      c.values.all (fun v => v == .missing || (match v with | .num _ => true | _ => false)))

/-- Well-formedness: every value of an object column is a string or
missing. -/
def wfObject (df : Df) : Bool :=
  df.all (fun c =>
    !(c.dtype == .object) ||
      c.values.all (fun v => v == .missing || (match v with | .str _ => true | _ => false)))

/-- Well-formedness: all columns have the same number of rows. -/
def wfRows (df : Df) : Bool :=
  df.all (fun c => c.values.length == nrows df)

/-! ### Statistics helpers (pandas semantics, over rationals) -/

/-- The present values of a column, sorted ascending. -/
def sortedPresent (vs : List Val) : List ℚ :=
  (present vs).mergeSort (fun a b => a ≤ b)

/-- `series.quantile(q)` with pandas' default linear interpolation:
position `q * (n - 1)` in the sorted present values, linearly
interpolated; `None` (float `NaN`) when no value is present. -/
def quantile (q : ℚ) (vs : List Val) : Option ℚ :=
  let s := sortedPresent vs
  match s with
  | [] => none
  | _ =>
    let n := s.length
    let pos : ℚ := q * (n - 1)
    let i : ℕ := pos.floor.toNat
    let g : ℚ := pos - i
    let xi := s.getD i 0
    let xj := s.getD (i + 1) xi
    some (xi + g * (xj - xi))

/-- `series.mean()` (skipna): `None` models float `NaN` for an empty
series. -/
def meanQ (vs : List Val) : Option ℚ :=
  match present vs with
  | [] => none
  | l => some (l.sum / l.length)

/-- `series.var(ddof=1)`: the sample variance over present values;
`None` models `NaN` when fewer than two values are present.
`series.std()` is its square root; theorems compare squared quantities so
the irrational square root never has to be materialized. -/
def varQ (vs : List Val) : Option ℚ :=
  match meanQ vs with
  | none => none
  | some m =>
    if (present vs).length < 2 then none
    else some (((present vs).map (fun x => (x - m) ^ 2)).sum / ((present vs).length - 1))

/-- Minimum of the present values (`series.min(skipna=True)`), `None`
models `NaN` on an empty series. -/
def minP (vs : List Val) : Option ℚ :=
  match present vs with
  | [] => none
  | x :: xs => some (xs.foldl min x)

/-- Maximum of the present values (`series.max(skipna=True)`). -/
def maxP (vs : List Val) : Option ℚ :=
  match present vs with
  | [] => none
  | x :: xs => some (xs.foldl max x)

/-! ### Outlier analysis (`detect_outliers`) -/

/-- The two outlier-detection methods. -/
inductive Method where
  | zscore
  | iqr
deriving DecidableEq

/-- Python `round` (round-half-to-even) of a rational, as an integer. -/
def roundHalfEven (q : ℚ) : ℤ :=
  let f := ⌊q⌋
  let r := q - f
  if r < 1/2 then f
  else if 1/2 < r then f + 1
  else if f % 2 = 0 then f else f + 1

/-- The number of rows drawn by `df.sample(frac=0.1, random_state=42)`:
`round(0.1 * n)`. -/
def sampleSize (n : ℕ) : ℕ := (roundHalfEven ((n : ℚ) / 10)).toNat

/-- `df.sample(frac=0.1, random_state=42)`: a fixed pseudorandom subset of
`sampleSize n` rows.  The numpy permutation for seed 42 is not reproduced
here; the subset is modeled as the first `sampleSize n` rows.  The
theorems below depend on the sampled rows only through their count (all
concrete inputs have at most 84 rows, so at most 8 rows are sampled and
the sample can never deliver more than 8 non-missing values, whichever
rows the permutation picks). -/
def sampleDf (df : Df) : Df :=
  df.map (fun c => { c with values := c.values.take (sampleSize (nrows df)) })

/-- The normality-test p-values collected by `detect_outliers` when
`method is None`: for each numeric column of the 10% sample with more
than 8 non-missing values, the p-value `normaltest(x.dropna())[1]`;
columns with at most 8 values contribute `np.nan`, removed by the final
`.dropna()`.  `ntF` abstracts the p-value of `scipy.stats.normaltest` on
the list of non-missing values. -/
def samplePvals (ntF : List ℚ → ℚ) (df : Df) : List ℚ :=
  (numericCols (sampleDf df)).filterMap (fun c =>
    let l := present c.values
    if 8 < l.length then some (ntF l) else none)

/-- `method = "zscore" if not normality_pvals.empty and
(normality_pvals > 0.05).all() else "iqr"`. -/
def selectMethod (ps : List ℚ) : Method :=
  if !ps.isEmpty && ps.all (fun p => decide ((1 : ℚ)/20 < p)) then .zscore else .iqr

/-- The IQR outlier test on one value of a column: flagged iff the value
lies outside `[Q1 - t*IQR, Q3 + t*IQR]`.  A missing value is never
flagged (`NaN` comparisons are false), and when the quantiles are `NaN`
(no present value) nothing is flagged. -/
def iqrFlag (vs : List Val) (t : ℚ) (v : Val) : Bool :=
  match quantile (1/4) vs, quantile (3/4) vs, v with
  | some q1, some q3, .num x =>
    let iqr := q3 - q1
    decide (x < q1 - t * iqr) || decide (q3 + t * iqr < x)
  | _, _, _ => false

/-- The z-score outlier test on one value:
`abs((x - mean) / std) > t`.  Stated on squares: for `t ≥ 0` and
`std = sqrt(var)` the source test is equivalent to
`(x - mean)^2 > t^2 * var`, which also reproduces the IEEE semantics of
the source at `std = 0` (`0/0 = NaN` compares false, matched by
`0 > 0` being false; a nonzero numerator over zero std gives `±inf > t`,
matched by `(x - mean)^2 > 0`).  A `NaN` mean or std (fewer than two
present values) flags nothing, as `NaN > t` is false. -/
def zscoreFlag (vs : List Val) (t : ℚ) (v : Val) : Bool :=
  match meanQ vs, varQ vs, v with
  | some m, some s2, .num x => decide (t ^ 2 * s2 < (x - m) ^ 2)
  | _, _, _ => false

/-- The outlier mask entry of one value under a given method. -/
def methodFlag (m : Method) (vs : List Val) (t : ℚ) (v : Val) : Bool :=
  match m with
  | .iqr => iqrFlag vs t v
  | .zscore => zscoreFlag vs t v

/-- Flagged percentage of one column: `(mask.sum() / len(df)) * 100`
(`n` is the row count of the dataframe). -/
def flagPct (m : Method) (t : ℚ) (n : ℕ) (vs : List Val) : ℚ :=
  ((vs.countP (methodFlag m vs t) : ℚ) / n) * 100

/-- `detect_outliers(df, method, threshold)` with an explicit method: the
per-column flagged percentages of every numeric column, all computed with
the one given method. -/
def detectOutliersWith (df : Df) (m : Method) (t : ℚ) : List (String × ℚ) :=
  (numericCols df).map (fun c => (c.name, flagPct m t (nrows df) c.values))

/-- `detect_outliers(df, method=None, threshold)`: select the single
dataset-wide method from the sampled normality p-values, then flag every
numeric column with it. -/
def detectOutliersAuto (ntF : List ℚ → ℚ) (df : Df) (t : ℚ) : List (String × ℚ) :=
  detectOutliersWith df (selectMethod (samplePvals ntF df)) t

/-! ### Outlier resolution (`clean_or_winsorize`) -/

/-- The comparison `np.argsort` effectively uses on a float column:
numbers ascending, `NaN` (missing) sorted last. -/
def valLt (a b : Val) : Bool :=
  match a, b with
  | .num x, .num y => decide (x < y)
  | .num _, _ => true
  | _, _ => false

/-- Equality of sort keys under `valLt`. -/
def valKeyEq (a b : Val) : Bool := !valLt a b && !valLt b a

/-- The stable sort rank of position `i` in `vs` (numbers ascending,
missing last, ties broken by position).  `np.argsort`'s tie order is
unspecified, but the winsorized result is unaffected: entries tied at a
replacement boundary are replaced by their own value. -/
def sortRank (vs : List Val) (i : ℕ) : ℕ :=
  let vi := vs.getD i .missing
  (List.range vs.length).countP (fun j =>
    let vj := vs.getD j .missing
    valLt vj vi || (valKeyEq vj vi && decide (j < i)))

/-- `scipy.stats.mstats.winsorize(x, limits=(0.05, 0.05))` with the
default inclusive limits: with `k = int(0.05 * n)`, the `k` smallest
entries are replaced by the value at sort position `k`
(`a[idx[:lowidx]] = a[idx[lowidx]]`) and the `k` largest entries by the
value at sort position `n - k - 1` (`a[idx[upidx:]] = a[idx[upidx-1]]`).
`int(0.05 * n)` is `n / 20` rounded down. -/
def winsorizeVals (vs : List Val) : List Val :=
  let n := vs.length
  let k := n / 20
  let sorted := vs.mergeSort (fun a b => !valLt b a)
  (List.range n).map (fun i =>
    if sortRank vs i < k then sorted.getD k .missing
    else if n - k ≤ sortRank vs i then sorted.getD (n - k - 1) .missing
    else vs.getD i .missing)

/-- One column step of `clean_or_winsorize`: columns without a recorded
percentage and non-numeric columns pass through; otherwise the IQR fence
`[Q1 - 1.5*IQR, Q3 + 1.5*IQR]` is recomputed from the column and, when
the recorded flagged percentage is at most `thr` (default 5), values
outside the fence are replaced by `NaN`
(`df[col].where((df[col] >= lower) & (df[col] <= upper))`, producing a
`float64` column; `NaN` bounds from an all-missing column fail both
comparisons, blanking the column); when the percentage exceeds `thr` the
column is winsorized at the 5th/95th percentiles. -/
def cwCol (pcts : List (String × ℚ)) (thr : ℚ) (c : Col) : Col :=
  match pcts.lookup c.name with
  | none => c
  | some p =>
    if !c.dtype.isNumeric then c
    else if p ≤ thr then
      match quantile (1/4) c.values, quantile (3/4) c.values with
      | some q1, some q3 =>
        let iqr := q3 - q1
        let lower := q1 - (3/2) * iqr
        let upper := q3 + (3/2) * iqr
        { c with
          dtype := Dtype.float,
          values := c.values.map (fun v =>
            match v with
            | .num x => if lower ≤ x ∧ x ≤ upper then .num x else .missing
            | _ => .missing) }
      | _, _ =>
        { c with
          dtype := Dtype.float,
          values := c.values.map (fun _ => Val.missing) }
    else { c with values := winsorizeVals c.values }

/-- `clean_or_winsorize(df, outlier_percentages, threshold=5)`. -/
def cleanOrWinsorize (df : Df) (pcts : List (String × ℚ)) (thr : ℚ) : Df :=
  df.map (cwCol pcts thr)

/-! ### Categorical encoding (`encode_categorical`) -/

/-- The string order used by `np.unique` / `LabelEncoder` on object
arrays: Python's lexicographic order on code points. -/
def strLe (a b : String) : Bool := decide (a < b) || a == b

/-- `series.nunique()`: the number of distinct non-missing values. -/
def nunique (vs : List Val) : ℕ :=
  ((vs.filter (fun v => !(v == .missing))).dedup).length

/-- The categories found by `OneHotEncoder.fit` on one object column: the
distinct string values in sorted order, followed by the `NaN` category
when the column contains missing entries (scikit-learn treats `NaN` as
its own category, sorted last). -/
def oneHotCategories (vs : List Val) : List Val :=
  let strs :=
    ((vs.filterMap (fun v => match v with | .str s => some s | _ => none)).dedup).mergeSort strLe
  let base := strs.map Val.str
  if vs.contains .missing then base ++ [.missing] else base

/-- The name of the `i`-th generated one-hot column:
`f"{col}_{i}"`. -/
def ohName (n : String) (i : ℕ) : String := n ++ "_" ++ toString i

/-- `series.astype(str)` on one value: a missing value renders as the
string `"nan"`. -/
def astypeStr (v : Val) : String :=
  match v with
  | .str s => s
  | .missing => "nan"
  | .num q => toString q

/-- `LabelEncoder().fit_transform(series.astype(str))`: each value is
mapped to the index of its string in the sorted list of distinct strings
(the deterministic order scikit-learn assigns codes in). -/
def labelEncodeVals (vs : List Val) : List Val :=
  let classes := ((vs.map astypeStr).dedup).mergeSort strLe
  vs.map (fun v => Val.num ((classes.indexOf (astypeStr v) : ℕ) : ℚ))

/-- One iteration of the `encode_categorical` loop on the column named
`n`: when `nunique <= 10`, one-hot encode (drop the column and append one
0/1 `float64` column per fitted category, named `<n>_<i>` via
`pd.DataFrame(transformed, columns=col_names)` and `df.join`); otherwise
label-encode the column in place (dtype `int64`). -/
def encodeOne (df : Df) (n : String) : Df :=
  match findCol df n with
  | none => df
  | some c =>
    if nunique c.values ≤ 10 then
      let cats := oneHotCategories c.values
      let newCols := (List.range cats.length).map (fun i =>
        ({ name := ohName n i, dtype := Dtype.float,
           values := c.values.map (fun v =>
             if v == cats.getD i .missing then Val.num 1 else Val.num 0) } : Col))
      df.filter (fun c2 => !(c2.name == n)) ++ newCols
    else
      df.map (fun c2 =>
        if c2.name == n then
          { c2 with dtype := Dtype.int, values := labelEncodeVals c2.values }
        else c2)

/-- The object/category column names captured before the loop
(`df.select_dtypes(include=["object", "category"]).columns`; the
`category` dtype never occurs in this pipeline). -/
def catNames (df : Df) : List String :=
  (df.filter (fun c => c.dtype == Dtype.object)).map (·.name)

/-- `encode_categorical(df)`. -/
def encodeCategorical (df : Df) : Df :=
  (catNames df).foldl encodeOne df

/-! ### Numeric scaling (`scale_numerical`) -/

/-- `MinMaxScaler().fit_transform` on one column: scale by the column's
own min/max over present values; a zero range is replaced by 1
(`_handle_zeros_in_scale`), so a constant column maps to 0.  `NaN`
entries are ignored by `fit` and preserved by `transform`; an all-missing
column passes through unchanged (`NaN` min/max make every output `NaN`,
i.e. missing, which the entries already are). -/
def scaleVals (vs : List Val) : List Val :=
  match minP vs, maxP vs with
  | some lo, some hi =>
    let d := if hi = lo then 1 else hi - lo
    vs.map (fun v => match v with | .num x => Val.num ((x - lo) / d) | v2 => v2)
  | _, _ => vs

/-- `scale_numerical(df)`: min-max scale every `float64`/`int64` column
(the scaled output has dtype `float64`). -/
def scaleNumerical (df : Df) : Df :=
  df.map (fun c =>
    if c.dtype.isNumeric then
      { c with dtype := Dtype.float, values := scaleVals c.values }
    else c)

/-! ### `normalize_file` -/

/-- `df.dropna(axis=1, how="all")`: drop every column whose values are
all missing. -/
def dropAllMissing (df : Df) : Df :=
  df.filter (fun c => !(c.values.all (fun v => v == .missing)))

/-- One column of the date-coercion loop of `normalize_file`.  `parseF`
abstracts `pd.to_datetime(value, errors="coerce")` on a non-missing value
(timestamps are modeled as rationals); a missing value always coerces to
`NaT`.  The column is converted when the parse successes exceed half of
the TOTAL row count `n`:
`converted.notna().sum() > 0.5 * len(df)`. -/
def dcCol (parseF : Val → Option ℚ) (n : ℕ) (c : Col) : Col :=
  if c.dtype == Dtype.object then
    let conv := c.values.map (fun v =>
      match v with
      | .missing => Val.missing
      | v2 => match parseF v2 with | some q => Val.num q | none => Val.missing)
    if n < 2 * conv.countP (fun v => !(v == .missing)) then
      { c with dtype := Dtype.datetime, values := conv }
    else c
  else c

/-- The date-coercion loop of `normalize_file` over all columns. -/
def dateCoerce (parseF : Val → Option ℚ) (df : Df) : Df :=
  df.map (dcCol parseF (nrows df))

/-- Median fill of one column
(`df[numeric_cols].fillna(df[numeric_cols].median())`): pandas' median is
the linearly interpolated 0.5 quantile of the present values; a column
with no present value has `NaN` median and `fillna(NaN)` changes
nothing. -/
def medianFillCol (c : Col) : Col :=
  if c.dtype.isNumeric then
    match quantile (1/2) c.values with
    | some m =>
      { c with values := c.values.map (fun v =>
          match v with | .missing => Val.num m | v2 => v2) }
    | none => c
  else c

/-- Median fill over all numeric columns. -/
def medianFill (df : Df) : Df := df.map medianFillCol

/-- The missing-value repair steps of `normalize_file`: drop fully
missing columns, coerce date-like object columns, median-fill numeric
columns. -/
def repairStage (parseF : Val → Option ℚ) (df : Df) : Df :=
  medianFill (dateCoerce parseF (dropAllMissing df))

/-- `normalize_file` after loading: repair, adaptive outlier handling
(`detect_outliers` with `method=None` and default threshold 1.5, then
`clean_or_winsorize` with default threshold 5), categorical encoding,
numeric scaling.  (S3 I/O and parquet serialization are outside the
model.) -/
def normalizeFile (parseF : Val → Option ℚ) (ntF : List ℚ → ℚ) (df : Df) : Df :=
  let r := repairStage parseF df
  let cleaned := cleanOrWinsorize r (detectOutliersAuto ntF r (3/2)) 5
  scaleNumerical (encodeCategorical cleaned)

/-! ### Column profiling (`profile_column`) -/

/-- The numeric summary fields of `profile_column` (min/max/mean/std);
`none` models float `NaN`.  The standard deviation is irrational in
general, so the record stores the sample variance (`ddof=1`), of which
the reported `std` is the square root; it is `none`/`NaN` exactly when
the variance is. -/
structure NumSummary where
  minV : Option ℚ
  maxV : Option ℚ
  meanV : Option ℚ
  varV : Option ℚ
deriving DecidableEq

/-- The text summary fields of `profile_column`: the length statistics
take the explicit sentinel 0 on an empty length series
(`... if not lengths.empty else 0`). -/
structure StrSummary where
  min_length : ℕ
  max_length : ℕ
  avg_length : ℚ
  top_values : List (String × ℕ)
deriving DecidableEq

/-- The type-conditional part of a column profile: numeric summary,
string summary, or nothing (e.g. a datetime column matches neither
`is_numeric_dtype` nor `is_string_dtype`). -/
inductive TypedSummary where
  | nums (s : NumSummary)
  | strs (s : StrSummary)
  | other
deriving DecidableEq

/-- The profile returned by `profile_column`.  `null_percentage` is
`none` (`NaN`) only for a zero-row column (mean of an empty mask). -/
structure ColumnProfile where
  dtype : Dtype
  null_count : ℕ
  null_percentage : Option ℚ
  unique_count : ℕ
  typed : TypedSummary
deriving DecidableEq

/-- `col.dropna().astype(str).str.len()`. -/
def strLengths (vs : List Val) : List ℕ :=
  (vs.filter (fun v => !(v == .missing))).map (fun v => (astypeStr v).length)

/-- `col.value_counts().head(5)`: counts of the distinct non-missing
values, sorted by count descending (stable in first-seen order among
ties; pandas leaves the tie order unspecified and no claim depends on
it), truncated to 5 and rendered with `str(k)`. -/
def topValues (vs : List Val) : List (String × ℕ) :=
  let distinct := (vs.filter (fun v => !(v == .missing))).dedup
  let counted := distinct.map (fun v => (astypeStr v, vs.count v))
  (counted.mergeSort (fun a b => b.2 ≤ a.2)).take 5

/-- `profile_column(col)`.  The function is total: statistical edge cases
(empty column, all-missing column, single value) produce `none` (`NaN`)
or zero sentinels, never an error. -/
def profileColumn (c : Col) : ColumnProfile :=
  let n := c.values.length
  let nulls := missingCount c.values
  { dtype := c.dtype
    null_count := nulls
    null_percentage := if n = 0 then none else some (100 * (nulls : ℚ) / n)
    unique_count := nunique c.values
    typed :=
      if c.dtype.isNumeric then
        .nums { minV := minP c.values
                maxV := maxP c.values
                meanV := meanQ c.values
                varV := varQ c.values }
      else if c.dtype == Dtype.object then
        .strs
          (let ls := strLengths c.values
           match ls with
           | [] => { min_length := 0, max_length := 0, avg_length := 0,
                     top_values := topValues c.values }
           | x :: xs =>
             { min_length := xs.foldl min x
               max_length := xs.foldl max x
               avg_length := ((ls.sum : ℚ) / ls.length)
               top_values := topValues c.values })
      else .other }

/-! ### Drift detection (`calculate_psi`, `detect_drift`) -/

/-- One per-column entry of the drift report. -/
structure DriftEntry where
  psi_score : Option ℚ
  drift_by_psi : Bool
  ks_p_value : ℚ
  drift_by_ks : Bool
deriving DecidableEq

/-- Python `round(x, 4)`. -/
def round4 (q : ℚ) : ℚ := (roundHalfEven (q * 10000) : ℚ) / 10000

/-- The bin index `np.histogram(xs, bins=10)` assigns to a value `x` of
the series: 10 equal-width bins spanning `[lo, hi]`, the observed
min/max of the series (expanded to `[lo - 1/2, lo + 1/2]` when
`lo = hi`, as numpy does); the last bin is closed at `hi`. -/
def binIdx (lo hi x : ℚ) : ℕ :=
  let lo2 := if lo = hi then lo - 1/2 else lo
  let hi2 := if lo = hi then lo + 1/2 else hi
  min 9 (((x - lo2) * 10 / (hi2 - lo2)).floor.toNat)

/-- `np.histogram(xs, bins=10)[0] / len(xs)` (the inner `scale_bins` of
`calculate_psi`): the fraction of the series in each of the 10 buckets;
`none` models the `NaN`s produced by the `0/0` division on an empty
series. -/
def scaleBins (xs : List ℚ) : Option (List ℚ) :=
  match xs with
  | [] => none
  | x :: rest =>
    let lo := rest.foldl min x
    let hi := rest.foldl max x
    some ((List.range 10).map (fun i =>
      ((xs.countP (fun y => binIdx lo hi y == i)) : ℚ) / xs.length))

/-- `calculate_psi(expected, actual, buckets=10)`: the sum over buckets
of `(e - a) * log((e + 1e-8) / (a + 1e-8))`, each series binned over its
own observed range after `dropna`.  `logF` abstracts `np.log`; `none`
models the `NaN` result when either series is empty. -/
def calculatePsi (logF : ℚ → ℚ) (expected actual : List Val) : Option ℚ :=
  match scaleBins (present expected), scaleBins (present actual) with
  | some es, some bs =>
    some (((es.zip bs).map (fun p =>
      (p.1 - p.2) * logF ((p.1 + 1/100000000) / (p.2 + 1/100000000)))).sum)
  | _, _ => none

/-- `detect_drift(baseline_df, current_df)`: for each column present in
both frames (in baseline order) whose current column is numeric, report
the rounded PSI and KS p-value plus the two drift flags (the raw values
are compared with the thresholds; a `NaN` PSI compares false).  `ksF`
abstracts the p-value of
`scipy.stats.ks_2samp(baseline.dropna(), current.dropna())`. -/
def detectDrift (ksF : List ℚ → List ℚ → ℚ) (logF : ℚ → ℚ) (bdf cdf : Df) :
    List (String × DriftEntry) :=
  ((names bdf).filter (fun n => (names cdf).contains n)).filterMap (fun n =>
    match findCol bdf n, findCol cdf n with
    | some bc, some cc =>
      if cc.dtype.isNumeric then
        let psi := calculatePsi logF bc.values cc.values
        let ksp := ksF (present bc.values) (present cc.values)
        some (n,
          { psi_score := psi.map round4
            drift_by_psi := match psi with | some p => decide ((1 : ℚ)/5 < p) | none => false
            ks_p_value := round4 ksp
            drift_by_ks := decide (ksp < 1/20) })
      else none
    | _, _ => none)

/-! ### Claim-side variant for the date-coercion rule (C3) -/

/-- Modelled from the CLAIM's wording, not from the source, for
comparison with `dcCol`: convert a text column to temporal iff the
successful parses exceed 50% of the column's NON-MISSING values. -/
def dcColClaim (parseF : Val → Option ℚ) (c : Col) : Col :=
  if c.dtype == Dtype.object then
    let conv := c.values.map (fun v =>
      match v with
      | .missing => Val.missing
      | v2 => match parseF v2 with | some q => Val.num q | none => Val.missing)
    let nonMissing := c.values.countP (fun v => !(v == .missing))
    if nonMissing < 2 * conv.countP (fun v => !(v == .missing)) then
      { c with dtype := Dtype.datetime, values := conv }
    else c
  else c

/-! ### Auxiliary definitions for the theorems -/

/-- The number of values `pd.to_datetime(..., errors="coerce")` parses
successfully in a column: the non-missing values whose parse succeeds. -/
def parsedCount (parseF : Val → Option ℚ) (vs : List Val) : ℕ :=
  vs.countP (fun v => match v with | .missing => false | v2 => (parseF v2).isSome)

/-- The record of the `i`-th one-hot column `encode_categorical`
generates for a column `c` (matching the construction in `encodeOne`). -/
def oneHotColOf (c : Col) (i : ℕ) : Col :=
  { name := ohName c.name i, dtype := Dtype.float,
    values := c.values.map (fun v =>
      if v == (oneHotCategories c.values).getD i .missing then Val.num 1 else Val.num 0) }

/-- All one-hot column names the object columns of `df` could generate
(a fitted category count is at most the value count plus one, so suffix
indexes range below `length + 1`). -/
def genNames (df : Df) : List String :=
  df.flatMap (fun c =>
    if c.dtype == Dtype.object then (List.range (c.values.length + 1)).map (ohName c.name)
    else [])

/-- Freshness of the generated one-hot names: pairwise distinct and
disjoint from the existing column names (`df.join` raises on a duplicate
column name, so the source presumes this). -/
def freshNames (df : Df) : Bool :=
  decide (genNames df).Nodup && (genNames df).all (fun n => !(names df).contains n)

/-- The numeric value of a column at row `r` (0 for a non-numeric cell);
used to state the per-row one-hot sum. -/
def rowVal (c : Col) (r : ℕ) : ℚ :=
  match c.values.getD r Val.missing with
  | .num q => q
  | _ => 0

/-- Whether every value of a column is a string (no missing entries). -/
def allStr (vs : List Val) : Bool :=
  vs.all (fun v => match v with | .str _ => true | _ => false)

/-- Whether every value of a column is a string or missing (a text
column, possibly with holes; a mixed text/number object column makes
scikit-learn's category sort raise instead). -/
def strOrMissing (vs : List Val) : Bool :=
  vs.all (fun v => match v with | .num _ => false | _ => true)

/-- Concrete frame refuting C3's non-missing-denominator reading: one
text column, two parseable dates, two missing entries. -/
def dfC3 : Df :=
  [Col.mk "d" Dtype.object
    [Val.str "2020-01-01", Val.str "2020-01-01", Val.missing, Val.missing]]

/-- Concrete frame refuting C2's claim that the resolution stage removes
exactly the values flagged by the selected method: eleven 0s flanked by
five -1s and five 1s.  With the z-score method nothing is flagged
(`|x - mean|/std = sqrt(2) < 1.5` for the extremes), yet the IQR fence
recomputed by `clean_or_winsorize` is `[0, 0]` and blanks all ten
nonzero entries. -/
def dfC2 : Df :=
  [Col.mk "x" Dtype.float
    (List.replicate 5 (Val.num (-1)) ++ List.replicate 11 (Val.num 0)
      ++ List.replicate 5 (Val.num 1))]

/-- Concrete frame refuting C5: a 21-row numeric column `[0]*20 ++ [1]`
(whose single outlier is below the 5% threshold and is therefore blanked
to `NaN` before scaling) next to a single-category text column (whose
one-hot indicator column is constant 1 and is scaled to 0). -/
def dfC5 : Df :=
  [Col.mk "x" Dtype.int (List.replicate 20 (Val.num 0) ++ [Val.num 1]),
   Col.mk "c" Dtype.object (List.replicate 21 (Val.str "a"))]

/-- Concrete frame for the C4 witness: one partially missing numeric
column and one fully missing column. -/
def dfC4 : Df :=
  [Col.mk "a" Dtype.float [Val.num 1, Val.missing],
   Col.mk "b" Dtype.float [Val.missing, Val.missing]]

/-- Concrete text column for C6: two distinct string categories plus a
missing entry, so the encoder fits three categories (`"a"`, `"b"`, and
`NaN`). -/
def cC6 : Col :=
  Col.mk "c" Dtype.object [Val.str "b", Val.str "a", Val.str "a", Val.missing]

/-- Concrete frame for C6. -/
def dfC6 : Df := [cC6]

/-! ### Helper lemmas -/

theorem foldl_min_le_init (l : List ℚ) (x : ℚ) : l.foldl min x ≤ x := by
  induction l generalizing x with
  | nil => exact le_refl x
  | cons a t ih => exact le_trans (ih (min x a)) (min_le_left x a)

theorem foldl_min_le_mem (l : List ℚ) (x a : ℚ) (h : a ∈ l) : l.foldl min x ≤ a := by
  induction l generalizing x with
  | nil => cases h
  | cons b t ih =>
    rcases List.mem_cons.mp h with rfl | hmem
    · exact le_trans (foldl_min_le_init t (min x a)) (min_le_right x a)
    · exact ih (min x b) hmem

theorem le_foldl_max_init (l : List ℚ) (x : ℚ) : x ≤ l.foldl max x := by
  induction l generalizing x with
  | nil => exact le_refl x
  | cons a t ih => exact le_trans (le_max_left x a) (ih (max x a))

theorem le_foldl_max_mem (l : List ℚ) (x a : ℚ) (h : a ∈ l) : a ≤ l.foldl max x := by
  induction l generalizing x with
  | nil => cases h
  | cons b t ih =>
    rcases List.mem_cons.mp h with rfl | hmem
    · exact le_trans (le_max_right x a) (le_foldl_max_init t (max x a))
    · exact ih (max x b) hmem

theorem foldl_min_mem_cons (l : List ℚ) (x : ℚ) : l.foldl min x ∈ x :: l := by
  induction l generalizing x with
  | nil => exact List.mem_singleton.mpr rfl
  | cons a t ih =>
    rw [List.foldl_cons]
    rcases List.mem_cons.mp (ih (min x a)) with h | h
    · rw [h]
      rcases min_choice x a with hc | hc <;> rw [hc]
      · exact List.mem_cons_self _ _
      · exact List.mem_cons_of_mem _ (List.mem_cons_self _ _)
    · exact List.mem_cons_of_mem _ (List.mem_cons_of_mem _ h)

theorem foldl_max_mem_cons (l : List ℚ) (x : ℚ) : l.foldl max x ∈ x :: l := by
  induction l generalizing x with
  | nil => exact List.mem_singleton.mpr rfl
  | cons a t ih =>
    rw [List.foldl_cons]
    rcases List.mem_cons.mp (ih (max x a)) with h | h
    · rw [h]
      rcases max_choice x a with hc | hc <;> rw [hc]
      · exact List.mem_cons_self _ _
      · exact List.mem_cons_of_mem _ (List.mem_cons_self _ _)
    · exact List.mem_cons_of_mem _ (List.mem_cons_of_mem _ h)

theorem sum_of_const (l : List ℚ) (q : ℚ) (h : ∀ x ∈ l, x = q) :
    l.sum = l.length * q := by
  induction l with
  | nil => simp
  | cons a t ih =>
    have ha : a = q := h a (List.mem_cons_self a t)
    have ht : t.sum = t.length * q := ih (fun x hx => h x (List.mem_cons_of_mem a hx))
    simp [ha, ht]
    ring

theorem mem_present_of_mem {vs : List Val} {x : ℚ} (h : Val.num x ∈ vs) :
    x ∈ present vs :=
  List.mem_filterMap.mpr ⟨Val.num x, h, rfl⟩

theorem present_eq_nil {vs : List Val} (h : ∀ v ∈ vs, v = Val.missing) :
    present vs = [] := by
  apply List.filterMap_eq_nil_iff.mpr
  intro v hv
  rw [h v hv]

theorem meanQ_ne_nil {vs : List Val} {m : ℚ} (hm : meanQ vs = some m) :
    present vs ≠ [] := by
  intro hnil
  simp [meanQ, hnil] at hm

theorem meanQ_const {vs : List Val} {q : ℚ} (h : ∀ x ∈ present vs, x = q)
    (hne : present vs ≠ []) : meanQ vs = some q := by
  unfold meanQ
  cases hp : present vs with
  | nil => exact absurd hp hne
  | cons a t =>
    show some ((a :: t).sum / ((a :: t).length : ℚ)) = some q
    have hsum : (a :: t).sum = ((a :: t).length : ℚ) * q := by
      apply sum_of_const
      intro x hx
      exact h x (hp ▸ hx)
    have hpos : (0 : ℚ) < (a :: t).length := by
      exact_mod_cast Nat.succ_pos t.length
    rw [hsum, mul_comm, mul_div_assoc, div_self (ne_of_gt hpos), mul_one]

theorem varQ_eq_zero_of_const {vs : List Val} {q s2 : ℚ}
    (h : ∀ x ∈ present vs, x = q) (hv : varQ vs = some s2) : s2 = 0 := by
  unfold varQ at hv
  cases hm : meanQ vs with
  | none => simp [hm] at hv
  | some m =>
    simp only [hm] at hv
    have hne : present vs ≠ [] := meanQ_ne_nil hm
    have hmq : m = q := by
      have h2 := meanQ_const h hne
      rw [hm] at h2
      exact Option.some_inj.mp h2
    by_cases hlen : (present vs).length < 2
    · rw [if_pos hlen] at hv
      exact absurd hv (by simp)
    · rw [if_neg hlen] at hv
      have hzero : ((present vs).map (fun x => (x - m) ^ 2)).sum = 0 := by
        have hall : ∀ y ∈ (present vs).map (fun x => (x - m) ^ 2), y = 0 := by
          intro y hy
          rcases List.mem_map.mp hy with ⟨x, hx, rfl⟩
          rw [h x hx, hmq, sub_self, pow_two, mul_zero]
        rw [sum_of_const _ 0 hall, mul_zero]
      have h3 := Option.some_inj.mp hv
      rw [hzero] at h3
      rw [← h3, zero_div]

theorem zscoreFlag_const {vs : List Val} {q : ℚ} (t : ℚ)
    (h : ∀ x ∈ present vs, x = q) {v : Val} (hv : v ∈ vs) :
    zscoreFlag vs t v = false := by
  unfold zscoreFlag
  cases hm : meanQ vs with
  | none => rfl
  | some m =>
    cases hvar : varQ vs with
    | none => rfl
    | some s2 =>
      cases v with
      | str s => rfl
      | missing => rfl
      | num x =>
        have hx : x = q := h x (mem_present_of_mem hv)
        have hmq : m = q := by
          have h2 := meanQ_const h (meanQ_ne_nil hm)
          rw [hm] at h2
          exact Option.some_inj.mp h2
        have hs2 : s2 = 0 := varQ_eq_zero_of_const h hvar
        simp [hx, hmq, hs2]

/-! ### C10 -/

/-- C10: `detect_outliers` with the z-score method on a constant
(zero-variance) numeric column does not raise a division error (the
source's `0/0 = NaN` comparisons are false, which the total embedding
reproduces) and reports a flagged percentage of 0 for that column. -/
theorem detect_zscore_constant (df : Df) (c : Col) (t q : ℚ)
    (hmem : c ∈ df) (hnum : c.dtype.isNumeric = true)
    (hconst : ∀ x ∈ present c.values, x = q) :
    (c.name, (0 : ℚ)) ∈ detectOutliersWith df Method.zscore t := by
  have hc : c ∈ numericCols df := List.mem_filter.mpr ⟨hmem, hnum⟩
  have hpct : flagPct Method.zscore t (nrows df) c.values = 0 := by
    unfold flagPct
    have hcount : c.values.countP (methodFlag Method.zscore c.values t) = 0 := by
      rw [List.countP_eq_zero]
      intro v hv
      simp [methodFlag, zscoreFlag_const t hconst hv]
    rw [hcount]
    simp
  have hmm : (c.name, flagPct Method.zscore t (nrows df) c.values)
      ∈ detectOutliersWith df Method.zscore t :=
    List.mem_map_of_mem _ hc
  rw [hpct] at hmm
  exact hmm

/-- Witness for C10 at a concrete constant column. -/
theorem detect_zscore_constant_witness :
    ("x", (0 : ℚ)) ∈ detectOutliersWith
      [Col.mk "x" Dtype.float [Val.num 5, Val.num 5, Val.num 5]] Method.zscore (3/2) :=
  detect_zscore_constant
    [Col.mk "x" Dtype.float [Val.num 5, Val.num 5, Val.num 5]]
    (Col.mk "x" Dtype.float [Val.num 5, Val.num 5, Val.num 5])
    (3/2) 5 (by decide) (by decide) (by decide)

/-! ### C9 -/

/-- C9: `profile_column` on a column with zero present values is total
(no error is raised): the null count is the full length, the distinct
count is 0, a numeric column gets the `NaN` (`none`) sentinel for
min/max/mean/std, and a text column gets 0 length statistics and an
empty top-value table. -/
theorem profile_all_missing (c : Col) (h : ∀ v ∈ c.values, v = Val.missing) :
    (profileColumn c).null_count = c.values.length ∧
    (profileColumn c).unique_count = 0 ∧
    (c.dtype.isNumeric = true →
      (profileColumn c).typed = TypedSummary.nums ⟨none, none, none, none⟩) ∧
    (c.dtype = Dtype.object →
      (profileColumn c).typed = TypedSummary.strs ⟨0, 0, 0, []⟩) := by
  have hp : present c.values = [] := present_eq_nil h
  have hfilter : c.values.filter (fun v => !(v == Val.missing)) = [] := by
    rw [List.filter_eq_nil_iff]
    intro v hv
    simp [h v hv]
  have hmin : minP c.values = none := by simp [minP, hp]
  have hmax : maxP c.values = none := by simp [maxP, hp]
  have hmean : meanQ c.values = none := by simp [meanQ, hp]
  have hvar : varQ c.values = none := by simp [varQ, hmean]
  have hls : strLengths c.values = [] := by simp [strLengths, hfilter]
  have htv : topValues c.values = [] := by simp [topValues, hfilter]
  refine ⟨?_, ?_, ?_, ?_⟩
  · show missingCount c.values = c.values.length
    unfold missingCount
    rw [List.countP_eq_length]
    intro v hv
    simp [h v hv]
  · show nunique c.values = 0
    simp [nunique, hfilter]
  · intro hnum
    simp [profileColumn, hnum, hmin, hmax, hmean, hvar]
  · intro hobj
    have hnum : c.dtype.isNumeric = false := by rw [hobj]; rfl
    simp [profileColumn, hnum, hobj, hls, htv, Dtype.isNumeric]

/-- Witness for C9 at a concrete all-missing numeric column. -/
theorem profile_all_missing_witness :
    (profileColumn (Col.mk "x" Dtype.float [Val.missing, Val.missing])).typed
      = TypedSummary.nums ⟨none, none, none, none⟩ :=
  (profile_all_missing (Col.mk "x" Dtype.float [Val.missing, Val.missing])
      (by decide)).2.2.1 (by decide)

/-! ### C1 -/

theorem isEmpty_false_iff (ps : List ℚ) : ps.isEmpty = false ↔ ps ≠ [] := by
  cases ps <;> simp

/-- C1: `detect_outliers` without an explicit method computes the
per-column report with the single method selected from the sampled
normality p-values (one dataset-wide choice applied to every numeric
column, cf. `detectOutliersWith`), and the z-score method is selected iff
at least one p-value was obtained and every obtained p-value exceeds
0.05.  The p-value list itself is `samplePvals`: one entry per numeric
column of the fixed-seed 10% row subsample having more than 8 non-missing
sampled values. -/
theorem detect_auto_selection (ntF : List ℚ → ℚ) (df : Df) (t : ℚ) :
    detectOutliersAuto ntF df t
      = detectOutliersWith df (selectMethod (samplePvals ntF df)) t
    ∧ (∀ ps : List ℚ, selectMethod ps = Method.zscore ↔
        (ps ≠ [] ∧ ∀ p ∈ ps, (1 : ℚ)/20 < p)) := by
  constructor
  · rfl
  · intro ps
    constructor
    · intro hz
      unfold selectMethod at hz
      by_cases hcond : (!ps.isEmpty && ps.all fun p => decide ((1 : ℚ)/20 < p)) = true
      · simp only [Bool.and_eq_true, Bool.not_eq_true', List.all_eq_true,
          decide_eq_true_eq, isEmpty_false_iff] at hcond
        exact hcond
      · rw [if_neg hcond] at hz
        exact Method.noConfusion hz
    · intro hps
      have hcond : (!ps.isEmpty && ps.all fun p => decide ((1 : ℚ)/20 < p)) = true := by
        simp only [Bool.and_eq_true, Bool.not_eq_true', List.all_eq_true,
          decide_eq_true_eq, isEmpty_false_iff]
        exact hps
      unfold selectMethod
      rw [if_pos hcond]

/-- Witness for C1: a singleton p-value above 0.05 selects z-score. -/
theorem detect_auto_selection_witness :
    selectMethod [(1 : ℚ)/10] = Method.zscore :=
  ((detect_auto_selection (fun _ => 0) [] 0).2 [(1 : ℚ)/10]).mpr
    ⟨by decide, by with_unfolding_all decide⟩

/-! ### C8 -/

theorem scaleBins_ne_none {xs : List ℚ} (h : xs ≠ []) :
    ∃ l, scaleBins xs = some l := by
  cases xs with
  | nil => exact absurd rfl h
  | cons a t => exact ⟨_, rfl⟩

theorem zip_self_map_sub_sum (l : List ℚ) (g : ℚ × ℚ → ℚ) :
    ((l.zip l).map (fun p => (p.1 - p.2) * g p)).sum = 0 := by
  induction l with
  | nil => rfl
  | cons a t ih => simp [List.zip_cons_cons, ih]

/-- PSI of a series against itself is exactly 0: both histograms agree
bucket by bucket, so every `(e - a) * log(...)` term vanishes regardless
of the logarithm. -/
theorem psi_self (logF : ℚ → ℚ) (vs : List Val) (hne : present vs ≠ []) :
    calculatePsi logF vs vs = some 0 := by
  unfold calculatePsi
  rcases scaleBins_ne_none hne with ⟨l, hl⟩
  rw [hl]
  show some _ = some 0
  rw [zip_self_map_sub_sum]

theorem round4_zero : round4 0 = 0 := by with_unfolding_all decide

theorem round4_one : round4 1 = 1 := by with_unfolding_all decide

/-- C8: `detect_drift(A, A)` reports, for every shared numeric column
with at least one present value, a PSI of exactly 0 (so `drift_by_psi` is
false) and — given that the two-sample KS test on two identical samples
has p-value 1 (documented `scipy.stats.ks_2samp` behaviour, abstracted by
`hks`) — a KS p-value of 1 (so `drift_by_ks` is false). -/
theorem drift_self_reports_zero (ksF : List ℚ → List ℚ → ℚ) (logF : ℚ → ℚ)
    (A : Df) (c : Col) (hks : ∀ s, ksF s s = 1)
    (hfind : findCol A c.name = some c) (hnum : c.dtype.isNumeric = true)
    (hne : present c.values ≠ []) :
    (c.name, DriftEntry.mk (some 0) false 1 false) ∈ detectDrift ksF logF A A := by
  have hmemA : c ∈ A := List.mem_of_find?_eq_some hfind
  have hname : c.name ∈ names A := List.mem_map_of_mem _ hmemA
  have hfl : c.name ∈ (names A).filter (fun n => (names A).contains n) := by
    apply List.mem_filter.mpr
    refine ⟨hname, ?_⟩
    simpa using hname
  apply List.mem_filterMap.mpr
  refine ⟨c.name, hfl, ?_⟩
  have h1 : (decide ((1 : ℚ)/5 < 0)) = false := decide_eq_false (by norm_num)
  have h2 : (decide ((1 : ℚ) < 1/20)) = false := decide_eq_false (by norm_num)
  simp only [hfind, hnum, psi_self logF c.values hne, hks, Option.map_some',
    round4_zero, round4_one, h1, h2, eq_self_iff_true, if_true]

/-- Witness for C8 at a concrete two-row frame. -/
theorem drift_self_reports_zero_witness :
    ("x", DriftEntry.mk (some 0) false 1 false) ∈ detectDrift
      (fun _ _ => 1) (fun _ => 0)
      [Col.mk "x" Dtype.float [Val.num 1, Val.num 2]]
      [Col.mk "x" Dtype.float [Val.num 1, Val.num 2]] :=
  drift_self_reports_zero (fun _ _ => 1) (fun _ => 0)
    [Col.mk "x" Dtype.float [Val.num 1, Val.num 2]]
    (Col.mk "x" Dtype.float [Val.num 1, Val.num 2])
    (fun _ => rfl) (by decide) (by decide) (by decide)

/-! ### C3 -/

/-- C3 counterexample: on `dfC3`, with a date parser that parses both
present values (as `pd.to_datetime` does for `"2020-01-01"`), 100% of
the NON-missing values parse — above 50% — yet the source leaves the
column as text, because it compares the successes against half the TOTAL
row count (`2 > 0.5 * 4` fails).  The claim-following variant
`dcColClaim` converts the column; the source (`dcCol`) does not. -/
theorem dateCoerce_counterexample :
    dateCoerce (fun _ => some 0) dfC3 ≠ dfC3.map (dcColClaim (fun _ => some 0))
    ∧ Option.map Col.dtype (findCol (dateCoerce (fun _ => some 0) dfC3) "d")
        = some Dtype.object
    ∧ Option.map Col.dtype (findCol (dfC3.map (dcColClaim (fun _ => some 0))) "d")
        = some Dtype.datetime := by
  refine ⟨by decide, by decide, by decide⟩

theorem countP_conv_eq_parsedCount (parseF : Val → Option ℚ) (vs : List Val) :
    (vs.map (fun v =>
      match v with
      | .missing => Val.missing
      | v2 => match parseF v2 with | some q => Val.num q | none => Val.missing)).countP
        (fun v => !(v == Val.missing)) = parsedCount parseF vs := by
  rw [List.countP_map]
  unfold parsedCount
  apply List.countP_congr
  intro v _
  cases v with
  | missing => rfl
  | num q => cases hpf : parseF (Val.num q) <;> simp [Function.comp, hpf]
  | str s => cases hpf : parseF (Val.str s) <;> simp [Function.comp, hpf]

/-- C3 amended: `normalize_file` converts a loaded text column to
temporal if and only if the number of successfully parsed values exceeds
50% of the TOTAL row count; an unconverted column passes through
unchanged. -/
theorem dateCoerce_total_row_rule (parseF : Val → Option ℚ) (df : Df) (c : Col)
    (hmem : c ∈ df) (hobj : c.dtype = Dtype.object) :
    dcCol parseF (nrows df) c ∈ dateCoerce parseF df
    ∧ ((dcCol parseF (nrows df) c).dtype = Dtype.datetime
        ↔ nrows df < 2 * parsedCount parseF c.values)
    ∧ (¬ nrows df < 2 * parsedCount parseF c.values →
        dcCol parseF (nrows df) c = c) := by
  have hobjB : (c.dtype == Dtype.object) = true := by rw [hobj]; rfl
  have hdc : dcCol parseF (nrows df) c
      = (if nrows df < 2 * parsedCount parseF c.values then
          { c with
            dtype := Dtype.datetime,
            values := c.values.map (fun v =>
              match v with
              | .missing => Val.missing
              | v2 => match parseF v2 with | some q => Val.num q | none => Val.missing) }
        else c) := by
    simp only [dcCol, hobjB, eq_self_iff_true, if_true]
    rw [countP_conv_eq_parsedCount]
  refine ⟨List.mem_map_of_mem _ hmem, ?_, ?_⟩
  · by_cases hlt : nrows df < 2 * parsedCount parseF c.values
    · rw [hdc, if_pos hlt]
      simp [hlt]
    · rw [hdc, if_neg hlt]
      rw [hobj]
      simp [hlt]
  · intro hnl
    rw [hdc, if_neg hnl]

/-- Witness for the amended C3 at a one-row frame whose single value
parses: 1 success exceeds half of 1 row, so the column converts. -/
theorem dateCoerce_total_row_rule_witness :
    (dcCol (fun _ => some 0) (nrows [Col.mk "d" Dtype.object [Val.str "x"]])
      (Col.mk "d" Dtype.object [Val.str "x"])).dtype = Dtype.datetime :=
  ((dateCoerce_total_row_rule (fun _ => some 0)
      [Col.mk "d" Dtype.object [Val.str "x"]]
      (Col.mk "d" Dtype.object [Val.str "x"]) (by decide) rfl).2.1).mpr (by decide)

/-! ### C4 -/

theorem eq_of_mem_of_name_eq {df : Df} (hnd : (names df).Nodup) {c1 c2 : Col}
    (h1 : c1 ∈ df) (h2 : c2 ∈ df) (he : c1.name = c2.name) : c1 = c2 := by
  induction df with
  | nil => cases h1
  | cons a t ih =>
    have hnd2 : a.name ∉ names t ∧ (names t).Nodup := by
      simpa [names] using hnd
    rcases List.mem_cons.mp h1 with rfl | hm1
    · rcases List.mem_cons.mp h2 with rfl | hm2
      · rfl
      · exact absurd (he ▸ List.mem_map_of_mem Col.name hm2) hnd2.1
    · rcases List.mem_cons.mp h2 with rfl | hm2
      · exact absurd (he ▸ List.mem_map_of_mem Col.name hm1) hnd2.1
      · exact ih hnd2.2 hm1 hm2

theorem dcCol_name (parseF : Val → Option ℚ) (n : ℕ) (c : Col) :
    (dcCol parseF n c).name = c.name := by
  simp only [dcCol]
  split
  · split <;> rfl
  · rfl

theorem medianFillCol_name (c : Col) : (medianFillCol c).name = c.name := by
  simp only [medianFillCol]
  split
  · split <;> rfl
  · rfl

theorem medianFillCol_dtype (c : Col) : (medianFillCol c).dtype = c.dtype := by
  simp only [medianFillCol]
  split
  · split <;> rfl
  · rfl

theorem names_map_of_name_preserved (f : Col → Col)
    (h : ∀ c, (f c).name = c.name) (df : Df) : names (df.map f) = names df := by
  unfold names
  rw [List.map_map]
  apply List.map_congr_left
  intro c _
  exact h c

theorem sortedPresent_ne_nil {vs : List Val} (h : present vs ≠ []) :
    sortedPresent vs ≠ [] := by
  intro hnil
  apply h
  have hlen := congrArg List.length hnil
  rw [sortedPresent, List.length_mergeSort] at hlen
  exact List.length_eq_zero.mp hlen

theorem quantile_isSome {vs : List Val} (q : ℚ) (h : present vs ≠ []) :
    ∃ m, quantile q vs = some m := by
  unfold quantile
  cases hs : sortedPresent vs with
  | nil => exact absurd hs (sortedPresent_ne_nil h)
  | cons a t => exact ⟨_, rfl⟩

/-- C4: after the missing-value repair steps of `normalize_file` (drop
fully missing columns, date coercion, median fill), every numeric column
has zero missing values, and every input column that was 100% missing is
absent from the result. -/
theorem repair_missing_values (parseF : Val → Option ℚ) (df : Df)
    (hwf : wfNumeric df = true) (hnd : (names df).Nodup) :
    (∀ c ∈ repairStage parseF df, c.dtype.isNumeric = true →
      Val.missing ∉ c.values)
    ∧ (∀ c ∈ df, (∀ v ∈ c.values, v = Val.missing) →
        c.name ∉ names (repairStage parseF df)) := by
  constructor
  · intro c hc hnum
    rcases List.mem_map.mp hc with ⟨c2, hc2, rfl⟩
    rcases List.mem_map.mp hc2 with ⟨c3, hc3, rfl⟩
    have hc3df : c3 ∈ df := List.mem_of_mem_filter hc3
    have hnum2 : (dcCol parseF (nrows (dropAllMissing df)) c3).dtype.isNumeric = true := by
      have hd := medianFillCol_dtype (dcCol parseF (nrows (dropAllMissing df)) c3)
      rw [← hd]
      exact hnum
    -- the date-coercion step leaves a numeric column untouched
    have hsame : dcCol parseF (nrows (dropAllMissing df)) c3 = c3 := by
      cases hobj : (c3.dtype == Dtype.object) with
      | false => simp [dcCol, hobj]
      | true =>
        exfalso
        have hce : c3.dtype = Dtype.object := by simpa using hobj
        have hdt : (dcCol parseF (nrows (dropAllMissing df)) c3).dtype = Dtype.datetime
            ∨ (dcCol parseF (nrows (dropAllMissing df)) c3).dtype = Dtype.object := by
          simp only [dcCol, hobj, eq_self_iff_true, if_true]
          split
          · exact Or.inl rfl
          · exact Or.inr hce
        rcases hdt with h | h <;> rw [h] at hnum2 <;> exact Bool.noConfusion hnum2
    rw [hsame] at hnum2 ⊢
    have hnum3 : c3.dtype.isNumeric = true := hnum2
    -- c3 has at least one present value
    have hkeep := List.of_mem_filter hc3
    rw [Bool.not_eq_true'] at hkeep
    rcases List.all_eq_false.mp hkeep with ⟨v, hvmem, hvfalse⟩
    have hwf3 : c3.values.all
        (fun v => v == Val.missing
          || (match v with | .num _ => true | _ => false)) = true := by
      have hw := (List.all_eq_true.mp hwf) c3 hc3df
      rw [Bool.or_eq_true] at hw
      rcases hw with h1 | h2
      · rw [Bool.not_eq_true'] at h1
        rw [hnum3] at h1
        exact Bool.noConfusion h1
      · exact h2
    have hv2 := (List.all_eq_true.mp hwf3) v hvmem
    rw [Bool.or_eq_true] at hv2
    rcases hv2 with h1 | h2
    · exact absurd h1 hvfalse
    · cases v with
      | str s => exact Bool.noConfusion h2
      | missing => exact Bool.noConfusion h2
      | num x =>
        have hpres : present c3.values ≠ [] := by
          intro hnil
          have hx := mem_present_of_mem hvmem
          rw [hnil] at hx
          cases hx
        rcases quantile_isSome (1/2) hpres with ⟨m, hm⟩
        intro hmiss
        simp only [medianFillCol, hnum3, eq_self_iff_true, if_true, hm] at hmiss
        rcases List.mem_map.mp hmiss with ⟨w, _, hweq⟩
        cases w <;> exact Val.noConfusion hweq
  · intro c hc hall hin
    have hnames : names (repairStage parseF df) = names (dropAllMissing df) := by
      show names (List.map medianFillCol
        (List.map (dcCol parseF (nrows (dropAllMissing df))) (dropAllMissing df)))
          = names (dropAllMissing df)
      rw [names_map_of_name_preserved _ medianFillCol_name,
        names_map_of_name_preserved _ (dcCol_name parseF (nrows (dropAllMissing df)))]
    rw [hnames] at hin
    rcases List.mem_map.mp hin with ⟨c2, hc2, he⟩
    have hc2df : c2 ∈ df := List.mem_of_mem_filter hc2
    have hceq : c2 = c := eq_of_mem_of_name_eq hnd hc2df hc he
    have hkeep := List.of_mem_filter hc2
    rw [hceq] at hkeep
    simp only [Bool.not_eq_true'] at hkeep
    have : c.values.all (fun v => v == Val.missing) = true := by
      rw [List.all_eq_true]
      intro v hv
      simp [hall v hv]
    rw [this] at hkeep
    exact Bool.noConfusion hkeep

/-- Witness for C4 on `dfC4`: the surviving numeric column is fully
filled and the fully-missing column is gone. -/
theorem repair_missing_values_witness :
    Val.missing ∉ (Col.mk "a" Dtype.float [Val.num 1, Val.num 1]).values
    ∧ "b" ∉ names (repairStage (fun _ => none) dfC4) :=
  ⟨(repair_missing_values (fun _ => none) dfC4 (by decide) (by decide)).1
      (Col.mk "a" Dtype.float [Val.num 1, Val.num 1])
      (by with_unfolding_all decide) (by decide),
   (repair_missing_values (fun _ => none) dfC4 (by decide) (by decide)).2
      (Col.mk "b" Dtype.float [Val.missing, Val.missing]) (by decide) (by decide)⟩

/-! ### C2 -/

set_option maxRecDepth 100000 in
/-- C2 counterexample: on `dfC2`, `detect_outliers` with the selected
z-score method flags NO value (percentage 0, which is ≤ 5%), yet
`clean_or_winsorize` — which always recomputes IQR bounds, whatever
method produced the mask — replaces the ten nonzero entries by missing.
The resolution stage therefore does not replace "exactly the values
marked by the selected detection method". -/
theorem cleanOrWinsorize_counterexample :
    detectOutliersWith dfC2 Method.zscore (3/2) = [("x", 0)]
    ∧ findCol (cleanOrWinsorize dfC2 (detectOutliersWith dfC2 Method.zscore (3/2)) 5) "x"
        = some (Col.mk "x" Dtype.float
            (List.replicate 5 Val.missing ++ List.replicate 11 (Val.num 0)
              ++ List.replicate 5 Val.missing)) := by
  constructor
  · with_unfolding_all decide
  · with_unfolding_all decide

/-- C2 amended: for a numeric column with a recorded flagged percentage
`p`, the resolution stage, when `p ≤ 5`, replaces exactly the values
outside the recomputed IQR fence `[Q1 - 1.5·IQR, Q3 + 1.5·IQR]` — i.e.
the values the IQR method (not necessarily the selected method) marks —
with missing, producing a float column; when `p > 5` it winsorizes the
column at the 5th/95th percentiles; non-numeric columns pass through
unchanged. -/
theorem cleanOrWinsorize_iqr_bounds (df : Df) (pcts : List (String × ℚ)) (thr : ℚ)
    (c : Col) (p : ℚ) (hmem : c ∈ df) (hlook : pcts.lookup c.name = some p) :
    cwCol pcts thr c ∈ cleanOrWinsorize df pcts thr
    ∧ (c.dtype.isNumeric = false → cwCol pcts thr c = c)
    ∧ (c.dtype.isNumeric = true → p ≤ thr → present c.values ≠ [] →
        (cwCol pcts thr c).dtype = Dtype.float
        ∧ (cwCol pcts thr c).values = c.values.map (fun v =>
            if iqrFlag c.values (3/2) v = true then Val.missing
            else match v with | .num x => Val.num x | _ => Val.missing))
    ∧ (c.dtype.isNumeric = true → thr < p →
        cwCol pcts thr c = { c with values := winsorizeVals c.values }) := by
  refine ⟨List.mem_map_of_mem _ hmem, ?_, ?_, ?_⟩
  · intro hnotnum
    have hnotb : (!c.dtype.isNumeric) = true := by rw [hnotnum]; rfl
    simp [cwCol, hlook, hnotb]
  · intro hnum hp hpres
    have hnotb : (!c.dtype.isNumeric) = false := by rw [hnum]; rfl
    rcases quantile_isSome (1/4) hpres with ⟨q1, hq1⟩
    rcases quantile_isSome (3/4) hpres with ⟨q3, hq3⟩
    simp only [cwCol, hlook, hnotb, Bool.false_eq_true, if_false, if_pos hp, hq1, hq3]
    refine ⟨trivial, ?_⟩
    apply List.map_congr_left
    intro v _
    cases v with
    | missing => simp [iqrFlag, hq1, hq3]
    | str s => simp [iqrFlag, hq1, hq3]
    | num x =>
      simp only [iqrFlag, hq1, hq3]
      by_cases hin : q1 - (3/2) * (q3 - q1) ≤ x ∧ x ≤ q3 + (3/2) * (q3 - q1)
      · rw [if_pos hin]
        have h1 : (decide (x < q1 - 3/2 * (q3 - q1))) = false :=
          decide_eq_false (not_lt.mpr (by linarith [hin.1]))
        have h2 : (decide (q3 + 3/2 * (q3 - q1) < x)) = false :=
          decide_eq_false (not_lt.mpr (by linarith [hin.2]))
        simp [h1, h2]
      · rw [if_neg hin]
        rcases not_and_or.mp hin with hlt | hgt
        · have h1 : (decide (x < q1 - 3/2 * (q3 - q1))) = true := by
            apply decide_eq_true
            have := not_le.mp hlt
            linarith
          simp [h1]
        · have h2 : (decide (q3 + 3/2 * (q3 - q1) < x)) = true := by
            apply decide_eq_true
            have := not_le.mp hgt
            linarith
          simp [h2]
  · intro hnum hgt
    have hnotb : (!c.dtype.isNumeric) = false := by rw [hnum]; rfl
    have hple : ¬ p ≤ thr := not_le.mpr hgt
    simp [cwCol, hlook, hnotb, hple]

/-- Witness for the amended C2: clean branch on a two-value column. -/
theorem cleanOrWinsorize_iqr_bounds_witness :
    (cwCol [("x", (0 : ℚ))] 5 (Col.mk "x" Dtype.float [Val.num 0, Val.num 10])).dtype
      = Dtype.float :=
  ((cleanOrWinsorize_iqr_bounds
      [Col.mk "x" Dtype.float [Val.num 0, Val.num 10]] [("x", (0 : ℚ))] 5
      (Col.mk "x" Dtype.float [Val.num 0, Val.num 10]) 0
      (by decide) (by decide)).2.2.1 rfl (by norm_num) (by decide)).1

/-! ### C5 -/

theorem present_map_numMap (g : ℚ → ℚ) (vs : List Val) :
    present (vs.map (fun v => match v with | .num x => Val.num (g x) | v2 => v2))
      = (present vs).map g := by
  induction vs with
  | nil => rfl
  | cons v t ih => cases v <;> simp [present] <;> simpa [present] using ih

theorem min_le_of_mem_cons (a : ℚ) (rest : List ℚ) (y : ℚ) (hy : y ∈ a :: rest) :
    rest.foldl min a ≤ y := by
  rcases List.mem_cons.mp hy with rfl | h
  · exact foldl_min_le_init rest y
  · exact foldl_min_le_mem rest a y h

theorem le_max_of_mem_cons (a : ℚ) (rest : List ℚ) (y : ℚ) (hy : y ∈ a :: rest) :
    y ≤ rest.foldl max a := by
  rcases List.mem_cons.mp hy with rfl | h
  · exact le_foldl_max_init rest y
  · exact le_foldl_max_mem rest a y h

set_option maxRecDepth 100000 in
/-- C5 counterexample: on `dfC5`, after the full `normalize_file`
pipeline, the numeric column `x` still contains a missing value (the
outlier that the clean branch blanked; a missing value does not lie in
[0, 1]), and the one-hot indicator column `c_0` — which enters the
scaler holding the constant value 1 — leaves the scaler as constant 0,
so scaling one-hot columns is NOT a no-op. -/
theorem normalize_scale_counterexample :
    findCol (normalizeFile (fun _ => none) (fun _ => 0) dfC5) "x"
      = some (Col.mk "x" Dtype.float (List.replicate 20 (Val.num 0) ++ [Val.missing]))
    ∧ findCol (normalizeFile (fun _ => none) (fun _ => 0) dfC5) "c_0"
        = some (Col.mk "c_0" Dtype.float (List.replicate 21 (Val.num 0))) := by
  with_unfolding_all decide

/-- C5 amended: the scaling stage maps every float/int column of the
frame to a float column scaled by its own min/max such that every
PRESENT value lies in [0, 1]; a column constant over its present values
maps every present value to 0 (no division by zero); and a 0/1-valued
column in which both values occur — a one-hot indicator with at least
two categories — is unchanged. -/
theorem scale_unit_interval (df : Df) (c : Col) (hmem : c ∈ df)
    (hnum : c.dtype.isNumeric = true) :
    ({ c with dtype := Dtype.float, values := scaleVals c.values } ∈ scaleNumerical df)
    ∧ (∀ x ∈ present (scaleVals c.values), 0 ≤ x ∧ x ≤ 1)
    ∧ (minP c.values = maxP c.values → ∀ x ∈ present (scaleVals c.values), x = 0)
    ∧ ((0 : ℚ) ∈ present c.values → (1 : ℚ) ∈ present c.values →
        (∀ x ∈ present c.values, x = 0 ∨ x = 1) → scaleVals c.values = c.values) := by
  have hmemout : ({ c with dtype := Dtype.float, values := scaleVals c.values } : Col)
      ∈ scaleNumerical df := by
    unfold scaleNumerical
    apply List.mem_map.mpr
    refine ⟨c, hmem, ?_⟩
    rw [if_pos hnum]
  cases hp : present c.values with
  | nil =>
    have hnone : minP c.values = none := by simp [minP, hp]
    have hsv : scaleVals c.values = c.values := by
      unfold scaleVals
      rw [hnone]
    refine ⟨hmemout, ?_, ?_, ?_⟩
    · intro x hx
      rw [hsv, hp] at hx
      cases hx
    · intro _ x hx
      rw [hsv, hp] at hx
      cases hx
    · intro h0 _ _
      cases h0
  | cons a rest =>
    have hmin : minP c.values = some (rest.foldl min a) := by simp [minP, hp]
    have hmax : maxP c.values = some (rest.foldl max a) := by simp [maxP, hp]
    have hsv : scaleVals c.values
        = c.values.map (fun v => match v with
            | .num x => Val.num ((x - rest.foldl min a) /
                (if rest.foldl max a = rest.foldl min a then 1
                 else rest.foldl max a - rest.foldl min a))
            | v2 => v2) := by
      unfold scaleVals
      rw [hmin, hmax]
    refine ⟨hmemout, ?_, ?_, ?_⟩
    · intro x hx
      rw [hsv, present_map_numMap] at hx
      rcases List.mem_map.mp hx with ⟨y, hy, rfl⟩
      rw [hp] at hy
      by_cases hc : rest.foldl max a = rest.foldl min a
      · rw [if_pos hc]
        have h1 := min_le_of_mem_cons a rest y hy
        have h2 := le_max_of_mem_cons a rest y hy
        rw [hc] at h2
        rw [le_antisymm h2 h1, sub_self, zero_div]
        norm_num
      · rw [if_neg hc]
        have hlt : rest.foldl min a < rest.foldl max a := by
          have hle := le_trans (min_le_of_mem_cons a rest a (List.mem_cons_self a rest))
            (le_max_of_mem_cons a rest a (List.mem_cons_self a rest))
          rcases lt_or_eq_of_le hle with h | h
          · exact h
          · exact absurd h.symm hc
        have hpos : (0 : ℚ) < rest.foldl max a - rest.foldl min a := sub_pos.mpr hlt
        constructor
        · exact div_nonneg (sub_nonneg.mpr (min_le_of_mem_cons a rest y hy)) (le_of_lt hpos)
        · rw [div_le_one hpos]
          exact sub_le_sub_right (le_max_of_mem_cons a rest y hy) _
    · intro hmm x hx
      rw [hmin, hmax] at hmm
      have hc : rest.foldl max a = rest.foldl min a := (Option.some_inj.mp hmm).symm
      rw [hsv, present_map_numMap] at hx
      rcases List.mem_map.mp hx with ⟨y, hy, rfl⟩
      rw [hp] at hy
      rw [if_pos hc]
      have h1 := min_le_of_mem_cons a rest y hy
      have h2 := le_max_of_mem_cons a rest y hy
      rw [hc] at h2
      rw [le_antisymm h2 h1, sub_self, zero_div]
    · intro h0 h1 hall
      have hloval : rest.foldl min a = 0 := by
        rcases hall _ (foldl_min_mem_cons rest a) with h | h
        · exact h
        · exfalso
          have hle := min_le_of_mem_cons a rest 0 h0
          rw [h] at hle
          norm_num at hle
      have hhival : rest.foldl max a = 1 := by
        rcases hall _ (foldl_max_mem_cons rest a) with h | h
        · exfalso
          have hle := le_max_of_mem_cons a rest 1 h1
          rw [h] at hle
          norm_num at hle
        · exact h
      rw [hsv, hloval, hhival]
      conv_rhs => rw [← List.map_id c.values]
      apply List.map_congr_left
      intro v _
      cases v with
      | num x => simp
      | str s => rfl
      | missing => rfl

/-- Witness for the amended C5 on a two-value column scaled to `[0, 1]`. -/
theorem scale_unit_interval_witness :
    ({ Col.mk "x" Dtype.float [Val.num 0, Val.num 2] with
        dtype := Dtype.float,
        values := scaleVals [Val.num 0, Val.num 2] } : Col)
      ∈ scaleNumerical [Col.mk "x" Dtype.float [Val.num 0, Val.num 2]]
    ∧ ((0 : ℚ) ≤ 1 ∧ (1 : ℚ) ≤ 1) :=
  ⟨(scale_unit_interval [Col.mk "x" Dtype.float [Val.num 0, Val.num 2]]
      (Col.mk "x" Dtype.float [Val.num 0, Val.num 2]) (by decide) rfl).1,
   (scale_unit_interval [Col.mk "x" Dtype.float [Val.num 0, Val.num 2]]
      (Col.mk "x" Dtype.float [Val.num 0, Val.num 2]) (by decide) rfl).2.1 1
      (by with_unfolding_all decide)⟩

/-! ### C7 -/

theorem binIdx_eq_iff (lo hi y : ℚ) (hlt : lo < hi) (hy1 : lo ≤ y) (hy2 : y ≤ hi)
    (i : ℕ) (h10 : i < 10) :
    binIdx lo hi y = i ↔
      (lo + (i : ℚ) * ((hi - lo)/10) ≤ y ∧
        (if i = 9 then y ≤ hi else y < lo + ((i : ℚ) + 1) * ((hi - lo)/10))) := by
  have hne : lo ≠ hi := ne_of_lt hlt
  have hsub : (0 : ℚ) < hi - lo := sub_pos.mpr hlt
  set z : ℚ := (y - lo) * 10 / (hi - lo) with hzdef
  have hbin : binIdx lo hi y = min 9 (⌊z⌋.toNat) := by
    unfold binIdx
    rw [if_neg hne, if_neg hne]
    rfl
  have hz0 : (0 : ℚ) ≤ z := by
    apply div_nonneg
    · nlinarith [sub_nonneg.mpr hy1]
    · linarith
  have hfloor0 : 0 ≤ ⌊z⌋ := Int.floor_nonneg.mpr hz0
  have hlow : ∀ j : ℚ, (lo + j * ((hi - lo)/10) ≤ y ↔ j ≤ z) := by
    intro j
    rw [hzdef, le_div_iff₀ hsub]
    constructor
    · intro h
      nlinarith
    · intro h
      nlinarith
  have hhigh : ∀ j : ℚ, (y < lo + j * ((hi - lo)/10) ↔ z < j) := by
    intro j
    rw [hzdef, div_lt_iff₀ hsub]
    constructor
    · intro h
      nlinarith
    · intro h
      nlinarith
  by_cases h9 : i = 9
  · subst h9
    rw [hbin]
    rw [if_pos rfl]
    constructor
    · intro hmin
      refine ⟨?_, hy2⟩
      have ht : 9 ≤ ⌊z⌋.toNat := min_eq_left_iff.mp hmin
      have hz9 : (9 : ℤ) ≤ ⌊z⌋ := by omega
      have hq : ((9 : ℕ) : ℚ) ≤ z := by
        have := Int.le_floor.mp hz9
        exact_mod_cast this
      apply (hlow ((9 : ℕ) : ℚ)).mpr hq
    · rintro ⟨hlo9, _⟩
      have hq : ((9 : ℕ) : ℚ) ≤ z := (hlow ((9 : ℕ) : ℚ)).mp hlo9
      have hz9 : (9 : ℤ) ≤ ⌊z⌋ := Int.le_floor.mpr (by exact_mod_cast hq)
      apply min_eq_left_iff.mpr
      omega
  · rw [hbin]
    have hi8 : i ≤ 8 := by omega
    rw [if_neg h9]
    constructor
    · intro hmin
      have ht : ⌊z⌋.toNat = i := by
        rcases le_or_lt 9 (⌊z⌋.toNat) with hc | hc
        · exact absurd (min_eq_left_iff.mpr hc ▸ hmin).symm h9
        · rw [min_eq_right (le_of_lt hc)] at hmin
          exact hmin
      have hfl : ⌊z⌋ = (i : ℤ) := by omega
      have h1 : ((i : ℕ) : ℚ) ≤ z := by
        have := Int.le_floor.mp (le_of_eq hfl.symm)
        exact_mod_cast this
      have h2 : z < (i : ℚ) + 1 := by
        have hlt2 := Int.lt_floor_add_one z
        rw [hfl] at hlt2
        exact_mod_cast hlt2
      refine ⟨(hlow ((i : ℕ) : ℚ)).mpr h1, ?_⟩
      exact (hhigh ((i : ℚ) + 1)).mpr h2
    · rintro ⟨hge, hlt2⟩
      have h1 : ((i : ℕ) : ℚ) ≤ z := (hlow ((i : ℕ) : ℚ)).mp hge
      have h2 : z < (i : ℚ) + 1 := (hhigh ((i : ℚ) + 1)).mp hlt2
      have hfl : ⌊z⌋ = (i : ℤ) := by
        rw [Int.floor_eq_iff]
        constructor
        · exact_mod_cast h1
        · push_cast
          exact h2
      have ht : ⌊z⌋.toNat = i := by omega
      rw [ht]
      exact min_eq_right (by omega)

theorem scaleBins_intervals (x0 : ℚ) (rest : List ℚ)
    (hlt : rest.foldl min x0 < rest.foldl max x0) :
    scaleBins (x0 :: rest) = some ((List.range 10).map (fun (i : ℕ) =>
      (((x0 :: rest).countP (fun y =>
          decide (rest.foldl min x0
              + (i : ℚ) * ((rest.foldl max x0 - rest.foldl min x0)/10) ≤ y)
          && (if i = 9 then decide (y ≤ rest.foldl max x0)
              else decide (y < rest.foldl min x0
                + ((i : ℚ) + 1) * ((rest.foldl max x0 - rest.foldl min x0)/10))))) : ℚ)
        / (x0 :: rest).length)) := by
  show some _ = some _
  congr 1
  apply List.map_congr_left
  intro i hi
  have hi10 : i < 10 := List.mem_range.mp hi
  have hcount : (x0 :: rest).countP (fun y => binIdx (rest.foldl min x0) (rest.foldl max x0) y == i)
      = (x0 :: rest).countP (fun y =>
          decide (rest.foldl min x0
              + (i : ℚ) * ((rest.foldl max x0 - rest.foldl min x0)/10) ≤ y)
          && (if i = 9 then decide (y ≤ rest.foldl max x0)
              else decide (y < rest.foldl min x0
                + ((i : ℚ) + 1) * ((rest.foldl max x0 - rest.foldl min x0)/10)))) := by
    apply List.countP_congr
    intro y hy
    have hy1 := min_le_of_mem_cons x0 rest y hy
    have hy2 := le_max_of_mem_cons x0 rest y hy
    have hch := binIdx_eq_iff (rest.foldl min x0) (rest.foldl max x0) y hlt hy1 hy2 i hi10
    by_cases hb : binIdx (rest.foldl min x0) (rest.foldl max x0) y = i
    · rcases hch.mp hb with ⟨h1, h2⟩
      by_cases i9 : i = 9
      · rw [if_pos i9] at h2 ⊢
        simp [hb, h1, h2]
      · rw [if_neg i9] at h2 ⊢
        simp [hb, h1, h2]
    · have hL : (binIdx (rest.foldl min x0) (rest.foldl max x0) y == i) = false := by
        simp [hb]
      have hR : (decide (rest.foldl min x0
              + (i : ℚ) * ((rest.foldl max x0 - rest.foldl min x0)/10) ≤ y)
          && (if i = 9 then decide (y ≤ rest.foldl max x0)
              else decide (y < rest.foldl min x0
                + ((i : ℚ) + 1) * ((rest.foldl max x0 - rest.foldl min x0)/10)))) = false := by
        by_contra hcon
        rw [Bool.not_eq_false, Bool.and_eq_true] at hcon
        rcases hcon with ⟨hc1, hc2⟩
        apply hb
        apply hch.mpr
        refine ⟨of_decide_eq_true hc1, ?_⟩
        by_cases i9 : i = 9
        · rw [if_pos i9] at hc2 ⊢
          exact of_decide_eq_true hc2
        · rw [if_neg i9] at hc2 ⊢
          exact of_decide_eq_true hc2
      rw [hL, hR]
  rw [hcount]

/-- C7: the drift report contains only columns shared by both frames and
numeric in the current frame (non-numeric columns are skipped); each
reported entry carries the 4-decimal roundings of the PSI (computed by
`calculatePsi`: 10 buckets per series over its own observed range, with
the 1e-8 floor inside the log ratio) and of the KS p-value, with the
drift flags thresholded on the RAW values at 0.2 and 0.05; and for a
series with distinct min and max the 10 histogram buckets are exactly the
equal-width intervals over the observed range, the last one closed. -/
theorem drift_report_shape (ksF : List ℚ → List ℚ → ℚ) (logF : ℚ → ℚ) (bdf cdf : Df) :
    (∀ n e, (n, e) ∈ detectDrift ksF logF bdf cdf →
      n ∈ names bdf ∧ n ∈ names cdf
        ∧ ∃ cc, findCol cdf n = some cc ∧ cc.dtype.isNumeric = true)
    ∧ (∀ n bc cc, findCol bdf n = some bc → findCol cdf n = some cc →
        cc.dtype.isNumeric = true →
        (n, DriftEntry.mk
            ((calculatePsi logF bc.values cc.values).map round4)
            (match calculatePsi logF bc.values cc.values with
              | some p => decide ((1 : ℚ)/5 < p)
              | none => false)
            (round4 (ksF (present bc.values) (present cc.values)))
            (decide (ksF (present bc.values) (present cc.values) < 1/20)))
          ∈ detectDrift ksF logF bdf cdf)
    ∧ (∀ (x0 : ℚ) (rest : List ℚ), rest.foldl min x0 < rest.foldl max x0 →
        scaleBins (x0 :: rest) = some ((List.range 10).map (fun (i : ℕ) =>
          (((x0 :: rest).countP (fun y =>
              decide (rest.foldl min x0
                  + (i : ℚ) * ((rest.foldl max x0 - rest.foldl min x0)/10) ≤ y)
              && (if i = 9 then decide (y ≤ rest.foldl max x0)
                  else decide (y < rest.foldl min x0
                    + ((i : ℚ) + 1) * ((rest.foldl max x0 - rest.foldl min x0)/10))))) : ℚ)
            / (x0 :: rest).length))) := by
  refine ⟨?_, ?_, ?_⟩
  · intro n e hmem
    rcases List.mem_filterMap.mp hmem with ⟨m, hmfil, hf⟩
    have hmb : m ∈ names bdf := List.mem_of_mem_filter hmfil
    have hmc : ((names cdf).contains m) = true := List.of_mem_filter hmfil
    cases hb : findCol bdf m with
    | none => simp [hb] at hf
    | some bc =>
      cases hcc : findCol cdf m with
      | none => simp [hb, hcc] at hf
      | some cc =>
        by_cases hnum : cc.dtype.isNumeric = true
        · simp [hb, hcc, hnum] at hf
          obtain ⟨rfl, -⟩ := hf
          exact ⟨hmb, by simpa using hmc, cc, hcc, hnum⟩
        · simp [hb, hcc, hnum] at hf
  · intro n bc cc hfb hfc hnum
    have hbcn : bc.name = n := by
      have := List.find?_some hfb
      simpa using this
    have hnb : n ∈ names bdf :=
      hbcn ▸ List.mem_map_of_mem Col.name (List.mem_of_find?_eq_some hfb)
    have hccn : cc.name = n := by
      have := List.find?_some hfc
      simpa using this
    have hnc : n ∈ names cdf :=
      hccn ▸ List.mem_map_of_mem Col.name (List.mem_of_find?_eq_some hfc)
    apply List.mem_filterMap.mpr
    refine ⟨n, ?_, ?_⟩
    · apply List.mem_filter.mpr
      refine ⟨hnb, by simpa using hnc⟩
    · simp [hfb, hfc, hnum]
  · intro x0 rest hlt
    exact scaleBins_intervals x0 rest hlt

/-- Witness for C7: a shared numeric column is reported with the PSI and
KS entry. -/
theorem drift_report_shape_witness :
    ("x", DriftEntry.mk
        ((calculatePsi (fun _ => 0) [Val.num 1] [Val.num 2]).map round4)
        (match calculatePsi (fun _ => 0) [Val.num 1] [Val.num 2] with
          | some p => decide ((1 : ℚ)/5 < p)
          | none => false)
        (round4 ((fun (_ _ : List ℚ) => (1 : ℚ)/2) (present [Val.num 1]) (present [Val.num 2])))
        (decide ((fun (_ _ : List ℚ) => (1 : ℚ)/2) (present [Val.num 1]) (present [Val.num 2]) < 1/20)))
      ∈ detectDrift (fun _ _ => (1 : ℚ)/2) (fun _ => 0)
        [Col.mk "x" Dtype.float [Val.num 1]] [Col.mk "x" Dtype.float [Val.num 2]] :=
  (drift_report_shape (fun _ _ => (1 : ℚ)/2) (fun _ => 0)
      [Col.mk "x" Dtype.float [Val.num 1]] [Col.mk "x" Dtype.float [Val.num 2]]).2.1
    "x" (Col.mk "x" Dtype.float [Val.num 1]) (Col.mk "x" Dtype.float [Val.num 2])
    (by decide) (by decide) rfl

/-! ### C6: generic list lemmas -/

theorem dedup_length_map_inj {α β : Type} [DecidableEq α] [DecidableEq β] (f : α → β)
    (hf : ∀ a b : α, f a = f b → a = b) (l : List α) :
    ((l.map f).dedup).length = (l.dedup).length := by
  induction l with
  | nil => rfl
  | cons a t ih =>
    by_cases h : a ∈ t
    · rw [List.map_cons, List.dedup_cons_of_mem (List.mem_map_of_mem f h),
        List.dedup_cons_of_mem h, ih]
    · have hnm : f a ∉ t.map f := by
        intro hc
        rcases List.mem_map.mp hc with ⟨b, hb, he⟩
        exact h ((hf b a he) ▸ hb)
      rw [List.map_cons, List.dedup_cons_of_not_mem hnm, List.dedup_cons_of_not_mem h]
      simp [ih]

theorem allStr_forall {vs : List Val} (h : allStr vs = true) :
    ∀ v ∈ vs, ∃ s, v = Val.str s := by
  intro v hv
  have hb := (List.all_eq_true.mp h) v hv
  cases v with
  | str s => exact ⟨s, rfl⟩
  | num q => exact Bool.noConfusion hb
  | missing => exact Bool.noConfusion hb

theorem allStr_not_contains_missing {vs : List Val} (h : allStr vs = true) :
    vs.contains Val.missing = false := by
  by_contra hc
  rw [Bool.not_eq_false] at hc
  have hm : Val.missing ∈ vs := by simpa using hc
  rcases allStr_forall h Val.missing hm with ⟨s, hs⟩
  exact Val.noConfusion hs

theorem str_list_eq {vs : List Val} (h : allStr vs = true) :
    vs = (vs.filterMap (fun v => match v with | .str s => some s | _ => none)).map Val.str := by
  induction vs with
  | nil => rfl
  | cons v t ih =>
    rcases allStr_forall h v (List.mem_cons_self v t) with ⟨s, rfl⟩
    have ht : allStr t = true := by
      rw [allStr, List.all_eq_true]
      intro w hw
      exact (List.all_eq_true.mp h) w (List.mem_cons_of_mem _ hw)
    show Val.str s :: t
        = Val.str s :: (t.filterMap (fun v => match v with | .str s => some s | _ => none)).map Val.str
    exact congrArg (Val.str s :: ·) (ih ht)

theorem strOrMissing_of_tail {v : Val} {t : List Val}
    (h : strOrMissing (v :: t) = true) : strOrMissing t = true := by
  rw [strOrMissing, List.all_eq_true]
  intro w hw
  exact (List.all_eq_true.mp h) w (List.mem_cons_of_mem _ hw)

theorem strOrMissing_filter_eq {vs : List Val} (h : strOrMissing vs = true) :
    vs.filter (fun v => !(v == Val.missing))
      = (vs.filterMap (fun v => match v with | .str s => some s | _ => none)).map Val.str := by
  induction vs with
  | nil => rfl
  | cons a t ih =>
    have ha := (List.all_eq_true.mp h) a (List.mem_cons_self a t)
    have ht := strOrMissing_of_tail h
    cases a with
    | num q => exact Bool.noConfusion ha
    | str s =>
      show Val.str s :: t.filter (fun v => !(v == Val.missing))
          = Val.str s
            :: (t.filterMap (fun v => match v with | .str s => some s | _ => none)).map Val.str
      exact congrArg (Val.str s :: ·) (ih ht)
    | missing =>
      show t.filter (fun v => !(v == Val.missing))
          = (t.filterMap (fun v => match v with | .str s => some s | _ => none)).map Val.str
      exact ih ht

theorem map_range_getD {β : Type} (l : List Val) (g : Val → β) :
    (List.range l.length).map (fun i => g (l.getD i Val.missing)) = l.map g := by
  induction l with
  | nil => rfl
  | cons a t ih =>
    rw [List.length_cons, List.range_succ_eq_map, List.map_cons, List.map_map, List.map_cons]
    congr 1

theorem indicator_sum_one (l : List Val) (v : Val) (hnd : l.Nodup) (hv : v ∈ l) :
    ((List.range l.length).map
      (fun i => if v == l.getD i Val.missing then (1 : ℚ) else 0)).sum = 1 := by
  rw [map_range_getD l (fun w => if v == w then (1 : ℚ) else 0)]
  induction l with
  | nil => cases hv
  | cons a t ih =>
    rw [List.map_cons, List.sum_cons]
    rcases List.mem_cons.mp hv with rfl | hvt
    · have hnotin : v ∉ t := (List.nodup_cons.mp hnd).1
      have hzero : (t.map (fun w => if v == w then (1 : ℚ) else 0)).sum = 0 := by
        have hall : ∀ y ∈ t.map (fun w => if v == w then (1 : ℚ) else 0), y = 0 := by
          intro y hy
          rcases List.mem_map.mp hy with ⟨w, hw, rfl⟩
          have hne : (v == w) = false :=
            beq_eq_false_iff_ne.mpr (fun he => hnotin (he ▸ hw))
          simp [hne]
        rw [sum_of_const _ 0 hall, mul_zero]
      rw [hzero]
      simp
    · have hvna : (v == a) = false :=
        beq_eq_false_iff_ne.mpr (fun he => (List.nodup_cons.mp hnd).1 (he ▸ hvt))
      rw [hvna, ih (List.nodup_cons.mp hnd).2 hvt]
      simp

/-- `oneHotCategories` with its local definitions unfolded. -/
theorem oneHotCategories_eq (vs : List Val) :
    oneHotCategories vs
      = (if vs.contains Val.missing = true then
          ((((vs.filterMap (fun v => match v with | .str s => some s | _ => none)).dedup).mergeSort strLe).map Val.str)
            ++ [Val.missing]
        else
          (((vs.filterMap (fun v => match v with | .str s => some s | _ => none)).dedup).mergeSort strLe).map Val.str) :=
  rfl

theorem catsLen_le (vs : List Val) :
    (oneHotCategories vs).length ≤ vs.length + 1 := by
  rw [oneHotCategories_eq]
  have hbase : ((((vs.filterMap (fun v => match v with | .str s => some s | _ => none)).dedup).mergeSort strLe).map Val.str).length
      ≤ vs.length := by
    rw [List.length_map, List.length_mergeSort]
    calc ((vs.filterMap (fun v => match v with | .str s => some s | _ => none)).dedup).length
        ≤ (vs.filterMap (fun v => match v with | .str s => some s | _ => none)).length :=
          (List.dedup_sublist _).length_le
      _ ≤ vs.length := List.length_filterMap_le _ _
  by_cases hc : vs.contains Val.missing = true
  · rw [if_pos hc, List.length_append]
    simp only [List.length_singleton]
    omega
  · rw [if_neg hc]
    omega

theorem catsLen_eq_nunique {vs : List Val} (h : allStr vs = true) :
    (oneHotCategories vs).length = nunique vs := by
  rw [oneHotCategories_eq, allStr_not_contains_missing h, if_neg (by simp)]
  rw [List.length_map, List.length_mergeSort]
  unfold nunique
  have hfilter : vs.filter (fun v => !(v == Val.missing)) = vs := by
    apply List.filter_eq_self.mpr
    intro v hv
    rcases allStr_forall h v hv with ⟨s, rfl⟩
    rfl
  rw [hfilter]
  conv_rhs => rw [str_list_eq h]
  rw [dedup_length_map_inj Val.str (fun a b he => Val.str.inj he)]

theorem mem_oneHotCategories {vs : List Val} (h : allStr vs = true)
    {v : Val} (hv : v ∈ vs) : v ∈ oneHotCategories vs := by
  rw [oneHotCategories_eq, allStr_not_contains_missing h, if_neg (by simp)]
  rcases allStr_forall h v hv with ⟨s, rfl⟩
  apply List.mem_map_of_mem
  rw [List.mem_mergeSort]
  apply List.mem_dedup.mpr
  apply List.mem_filterMap.mpr
  exact ⟨Val.str s, hv, rfl⟩

theorem oneHotCategories_nodup (vs : List Val) :
    (oneHotCategories vs).Nodup := by
  rw [oneHotCategories_eq]
  have hbase : ((((vs.filterMap (fun v => match v with | .str s => some s | _ => none)).dedup).mergeSort strLe).map Val.str).Nodup := by
    have hperm : List.Perm
        (((vs.filterMap (fun v => match v with | .str s => some s | _ => none)).dedup).mergeSort strLe)
        ((vs.filterMap (fun v => match v with | .str s => some s | _ => none)).dedup) :=
      List.mergeSort_perm _ _
    exact (hperm.nodup_iff.mpr (List.nodup_dedup _)).map (fun a b he => Val.str.inj he)
  by_cases hc : vs.contains Val.missing = true
  · rw [if_pos hc]
    apply List.Nodup.append hbase (List.nodup_singleton _)
    intro x hx hx2
    rcases List.mem_map.mp hx with ⟨s, _, rfl⟩
    have h2 := List.mem_singleton.mp hx2
    exact Val.noConfusion h2
  · rw [if_neg hc]
    exact hbase

/-- The fitted category count: the distinct non-missing value count, plus
one for the `NaN` category when the column has a missing entry. -/
theorem catsLen_eq_general {vs : List Val} (h : strOrMissing vs = true) :
    (oneHotCategories vs).length
      = nunique vs + (if vs.contains Val.missing then 1 else 0) := by
  have hbase : ((((vs.filterMap (fun v => match v with | .str s => some s | _ => none)).dedup).mergeSort strLe).map Val.str).length = nunique vs := by
    rw [List.length_map, List.length_mergeSort]
    unfold nunique
    rw [strOrMissing_filter_eq h,
      dedup_length_map_inj Val.str (fun a b he => Val.str.inj he)]
  rw [oneHotCategories_eq]
  by_cases hc : vs.contains Val.missing = true
  · rw [if_pos hc, if_pos hc, List.length_append, hbase]
    rfl
  · rw [if_neg hc, if_neg hc, hbase]
    rfl

theorem mem_oneHotCategories_sm {vs : List Val} (h : strOrMissing vs = true)
    {v : Val} (hv : v ∈ vs) : v ∈ oneHotCategories vs := by
  have ha := (List.all_eq_true.mp h) v hv
  rw [oneHotCategories_eq]
  cases v with
  | num q => exact Bool.noConfusion ha
  | str s =>
    have hmem : Val.str s
        ∈ (((vs.filterMap (fun v => match v with | .str s2 => some s2 | _ => none)).dedup).mergeSort strLe).map Val.str := by
      apply List.mem_map_of_mem
      rw [List.mem_mergeSort]
      exact List.mem_dedup.mpr (List.mem_filterMap.mpr ⟨Val.str s, hv, rfl⟩)
    by_cases hc : vs.contains Val.missing = true
    · rw [if_pos hc]
      exact List.mem_append_left _ hmem
    · rw [if_neg hc]
      exact hmem
  | missing =>
    have hc : vs.contains Val.missing = true := by simpa using hv
    rw [if_pos hc]
    exact List.mem_append_right _ (List.mem_singleton_self _)

/-! ### C6: `encodeOne`-level lemmas -/

theorem findCol_mem {df : Df} {n : String} {c : Col} (h : findCol df n = some c) :
    c ∈ df ∧ c.name = n := by
  constructor
  · exact List.mem_of_find?_eq_some h
  · have hb := List.find?_some h
    simpa using hb

theorem findCol_of_mem {df : Df} (hnd : (names df).Nodup) {c : Col} (hc : c ∈ df) :
    findCol df c.name = some c := by
  cases hf : findCol df c.name with
  | none =>
    exfalso
    have hn := List.find?_eq_none.mp hf c hc
    simp at hn
  | some c2 =>
    rcases findCol_mem hf with ⟨h1, h2⟩
    rw [eq_of_mem_of_name_eq hnd h1 hc h2]

theorem findCol_isSome_of_mem_names {df : Df} {n : String} (h : n ∈ names df) :
    ∃ c, findCol df n = some c := by
  rcases List.mem_map.mp h with ⟨c, hc, rfl⟩
  cases hf : findCol df c.name with
  | none =>
    exfalso
    have hn := List.find?_eq_none.mp hf c hc
    simp at hn
  | some c2 => exact ⟨c2, rfl⟩

theorem find?_filter_name (df : Df) (n m : String) (hne : m ≠ n) :
    (df.filter (fun c => !(c.name == n))).find? (fun c => c.name == m)
      = df.find? (fun c => c.name == m) := by
  induction df with
  | nil => rfl
  | cons a t ih =>
    by_cases ha : a.name = n
    · have hfa : (!(a.name == n)) = false := by simp [ha]
      have hma : (a.name == m) = false := by
        apply beq_eq_false_iff_ne.mpr
        rw [ha]
        exact fun he => hne he.symm
      rw [List.filter_cons, hfa, if_neg (by simp)]
      simp only [List.find?, hma]
      exact ih
    · have hfa : (!(a.name == n)) = true := by simp [ha]
      rw [List.filter_cons, hfa, if_pos rfl]
      by_cases ham : a.name = m
      · have hmt : (a.name == m) = true := by simp [ham]
        simp only [List.find?, hmt]
      · have hmf : (a.name == m) = false := by simp [ham]
        simp only [List.find?, hmf]
        exact ih

theorem encodeOne_eq_of_none {df : Df} {n : String} (hf : findCol df n = none) :
    encodeOne df n = df := by
  unfold encodeOne
  rw [hf]

theorem encodeOne_eq_of_found {df : Df} {n : String} {c : Col}
    (hf : findCol df n = some c) :
    encodeOne df n
      = (if nunique c.values ≤ 10 then
          df.filter (fun c2 => !(c2.name == n))
            ++ (List.range (oneHotCategories c.values).length).map (fun i =>
              ({ name := ohName n i, dtype := Dtype.float,
                 values := c.values.map (fun v =>
                   if v == (oneHotCategories c.values).getD i .missing then Val.num 1
                   else Val.num 0) } : Col))
        else
          df.map (fun c2 =>
            if c2.name == n then
              { c2 with dtype := Dtype.int, values := labelEncodeVals c2.values }
            else c2)) := by
  unfold encodeOne
  rw [hf]

theorem mem_encodeOne_of_ne {df : Df} {n : String} {c : Col}
    (hc : c ∈ df) (hne : c.name ≠ n) : c ∈ encodeOne df n := by
  cases hf : findCol df n with
  | none =>
    rw [encodeOne_eq_of_none hf]
    exact hc
  | some c2 =>
    rw [encodeOne_eq_of_found hf]
    by_cases hk : nunique c2.values ≤ 10
    · rw [if_pos hk]
      apply List.mem_append_left
      apply List.mem_filter.mpr
      exact ⟨hc, by simp [hne]⟩
    · rw [if_neg hk]
      apply List.mem_map.mpr
      exact ⟨c, hc, by simp [hne]⟩

theorem findCol_map_name_preserved (f : Col → Col) (hf : ∀ c, (f c).name = c.name)
    (df : Df) (m : String) :
    findCol (df.map f) m = (findCol df m).map f := by
  induction df with
  | nil => rfl
  | cons a t ih =>
    unfold findCol at ih ⊢
    rw [List.map_cons]
    by_cases ham : a.name = m
    · have h1 : ((f a).name == m) = true := by simp [hf a, ham]
      have h2 : (a.name == m) = true := by simp [ham]
      simp only [List.find?, h1, h2, Option.map_some']
    · have h1 : ((f a).name == m) = false := by simp [hf a, ham]
      have h2 : (a.name == m) = false := by simp [ham]
      simp only [List.find?, h1, h2]
      exact ih

theorem findCol_encodeOne_of_ne {df : Df} {n m : String} {c : Col}
    (hne : m ≠ n) (hfm : findCol df m = some c) :
    findCol (encodeOne df n) m = some c := by
  cases hf : findCol df n with
  | none =>
    rw [encodeOne_eq_of_none hf]
    exact hfm
  | some c2 =>
    rw [encodeOne_eq_of_found hf]
    by_cases hk : nunique c2.values ≤ 10
    · rw [if_pos hk]
      unfold findCol at hfm ⊢
      rw [List.find?_append, find?_filter_name df n m hne, hfm]
      rfl
    · rw [if_neg hk]
      have hpres : ∀ c3 : Col, ((fun c4 : Col =>
          if c4.name == n then
            { c4 with dtype := Dtype.int, values := labelEncodeVals c4.values }
          else c4) c3).name = c3.name := by
        intro c3
        by_cases h : (c3.name == n) = true <;> simp [h]
      rw [findCol_map_name_preserved _ hpres df m, hfm]
      have hcn : c.name = m := (findCol_mem hfm).2
      simp only [Option.map_some']
      rw [if_neg (by simp [hcn, hne])]

theorem names_encodeOne_sub {df : Df} {n : String} {m : String}
    (hm : m ∈ names (encodeOne df n)) :
    m ∈ names df
    ∨ ∃ c i, findCol df n = some c ∧ nunique c.values ≤ 10
        ∧ i < (oneHotCategories c.values).length ∧ m = ohName n i := by
  cases hf : findCol df n with
  | none =>
    rw [encodeOne_eq_of_none hf] at hm
    exact Or.inl hm
  | some c =>
    rw [encodeOne_eq_of_found hf] at hm
    by_cases hk : nunique c.values ≤ 10
    · rw [if_pos hk] at hm
      unfold names at hm
      rw [List.map_append] at hm
      rcases List.mem_append.mp hm with h | h
      · left
        rcases List.mem_map.mp h with ⟨c2, hc2, rfl⟩
        exact List.mem_map_of_mem _ (List.mem_of_mem_filter hc2)
      · right
        rcases List.mem_map.mp h with ⟨c2, hc2, rfl⟩
        rcases List.mem_map.mp hc2 with ⟨i, hi, rfl⟩
        exact ⟨c, i, rfl, hk, List.mem_range.mp hi, rfl⟩
    · rw [if_neg hk] at hm
      left
      unfold names at hm ⊢
      rcases List.mem_map.mp hm with ⟨c2, hc2, rfl⟩
      rcases List.mem_map.mp hc2 with ⟨c3, hc3, rfl⟩
      have hn3 : ((if c3.name == n then
          ({ c3 with dtype := Dtype.int, values := labelEncodeVals c3.values } : Col)
          else c3)).name = c3.name := by
        split <;> rfl
      rw [hn3]
      exact List.mem_map_of_mem _ hc3

/-! ### C6: freshness of generated names -/

theorem freshNames_spec {df : Df} (h : freshNames df = true) :
    (genNames df).Nodup ∧ ∀ g ∈ genNames df, g ∉ names df := by
  unfold freshNames at h
  rw [Bool.and_eq_true] at h
  constructor
  · exact of_decide_eq_true h.1
  · intro g hg
    have hb := (List.all_eq_true.mp h.2) g hg
    simpa using hb

theorem mem_genNames {df : Df} {c : Col} (hc : c ∈ df) (hobj : c.dtype = Dtype.object)
    {i : ℕ} (hi : i < c.values.length + 1) :
    ohName c.name i ∈ genNames df := by
  unfold genNames
  apply List.mem_flatMap.mpr
  refine ⟨c, hc, ?_⟩
  rw [if_pos (by simp [hobj])]
  exact List.mem_map_of_mem _ (List.mem_range.mpr hi)

theorem segment_sublist {df : Df} {c : Col} (hc : c ∈ df) (hobj : c.dtype = Dtype.object) :
    ((List.range (c.values.length + 1)).map (ohName c.name)).Sublist (genNames df) := by
  induction df with
  | nil => cases hc
  | cons a t ih =>
    show ((List.range (c.values.length + 1)).map (ohName c.name)).Sublist (genNames (a :: t))
    have hg : genNames (a :: t)
        = (if (a.dtype == Dtype.object) = true then
            (List.range (a.values.length + 1)).map (ohName a.name) else [])
          ++ genNames t := by
      unfold genNames
      rw [List.flatMap_cons]
    rw [hg]
    rcases List.mem_cons.mp hc with rfl | hmem
    · rw [if_pos (by simp [hobj])]
      exact List.sublist_append_left _ _
    · exact (ih hmem).trans (List.sublist_append_right _ _)

theorem gen_inj {df : Df} (hg : (genNames df).Nodup) {c : Col} (hc : c ∈ df)
    (hobj : c.dtype = Dtype.object) {i j : ℕ} (hi : i < c.values.length + 1)
    (hj : j < c.values.length + 1) (hij : i ≠ j) :
    ohName c.name i ≠ ohName c.name j := by
  have hseg : ((List.range (c.values.length + 1)).map (ohName c.name)).Nodup :=
    hg.sublist (segment_sublist hc hobj)
  have hpw : (List.range (c.values.length + 1)).Pairwise
      (fun a b => ohName c.name a ≠ ohName c.name b) := List.pairwise_map.mp hseg
  have hsym : Symmetric (fun a b : ℕ => ohName c.name a ≠ ohName c.name b) :=
    fun a b h he => h he.symm
  exact hpw.forall hsym (List.mem_range.mpr hi) (List.mem_range.mpr hj) hij

theorem nodup_flatMap_disjoint {α β : Type} (f : α → List β) (l : List α)
    (hnd : (l.flatMap f).Nodup) (a b : α) (ha : a ∈ l) (hb : b ∈ l) (hab : a ≠ b)
    (m : β) (hma : m ∈ f a) (hmb : m ∈ f b) : False := by
  rcases List.append_of_mem ha with ⟨s, t, rfl⟩
  have hgen : (s ++ a :: t).flatMap f = s.flatMap f ++ (f a ++ t.flatMap f) := by
    rw [List.flatMap_append, List.flatMap_cons]
  rw [hgen] at hnd
  rcases List.mem_append.mp hb with hbs | hbt
  · have hm1 : m ∈ s.flatMap f := List.mem_flatMap.mpr ⟨b, hbs, hmb⟩
    have hdup : ([m, m] : List β).Sublist (s.flatMap f ++ (f a ++ t.flatMap f)) :=
      List.Sublist.append (List.singleton_sublist.mpr hm1)
        (List.singleton_sublist.mpr (List.mem_append_left _ hma))
    exact (List.nodup_iff_sublist.mp hnd m) hdup
  · rcases List.mem_cons.mp hbt with rfl | hbt2
    · exact hab rfl
    · have hm1 : m ∈ t.flatMap f := List.mem_flatMap.mpr ⟨b, hbt2, hmb⟩
      have hdup : ([m, m] : List β).Sublist (s.flatMap f ++ (f a ++ t.flatMap f)) :=
        (List.Sublist.append (List.singleton_sublist.mpr hma)
          (List.singleton_sublist.mpr hm1)).trans (List.sublist_append_right _ _)
      exact (List.nodup_iff_sublist.mp hnd m) hdup

theorem gen_disjoint {df : Df} (hg : (genNames df).Nodup)
    {c1 c2 : Col} (h1 : c1 ∈ df) (h2 : c2 ∈ df)
    (hb1 : c1.dtype = Dtype.object) (hb2 : c2.dtype = Dtype.object)
    (hne : c1.name ≠ c2.name) {i1 i2 : ℕ}
    (hi1 : i1 < c1.values.length + 1) (hi2 : i2 < c2.values.length + 1) :
    ohName c1.name i1 ≠ ohName c2.name i2 := by
  intro he
  unfold genNames at hg
  apply nodup_flatMap_disjoint _ df hg c1 c2 h1 h2
    (fun hcc => hne (congrArg Col.name hcc)) (ohName c1.name i1)
  · rw [if_pos (by simp [hb1])]
    exact List.mem_map_of_mem _ (List.mem_range.mpr hi1)
  · rw [if_pos (by simp [hb2])]
    rw [he]
    exact List.mem_map_of_mem _ (List.mem_range.mpr hi2)

/-! ### C6: lemmas about the encoding fold -/

theorem go_mem_of_preserved (ns : List String) :
    ∀ (df : Df) (c : Col), c ∈ df → (∀ n ∈ ns, c.name ≠ n) →
      c ∈ ns.foldl encodeOne df := by
  induction ns with
  | nil =>
    intro df c hc _
    exact hc
  | cons n rest ih =>
    intro df c hc hne
    rw [List.foldl_cons]
    exact ih (encodeOne df n) c
      (mem_encodeOne_of_ne hc (hne n (List.mem_cons_self n rest)))
      (fun n2 h2 => hne n2 (List.mem_cons_of_mem n h2))

theorem go_find_all (ns : List String) :
    ∀ (df : Df) (ms : List String),
      (∀ n ∈ ms, n ∉ ns) →
      (∀ n ∈ ms, ∃ cn, findCol df n = some cn) →
      ∀ n ∈ ms, findCol (ns.foldl encodeOne df) n = findCol df n := by
  induction ns with
  | nil =>
    intro df ms _ _ n _
    rfl
  | cons n1 rest ih =>
    intro df ms hdisj hex n hn
    rw [List.foldl_cons]
    have hne : n ≠ n1 := fun he => hdisj n hn (he ▸ List.mem_cons_self n1 rest)
    rcases hex n hn with ⟨cn, hcn⟩
    have hstep : findCol (encodeOne df n1) n = some cn := findCol_encodeOne_of_ne hne hcn
    have hex2 : ∀ m ∈ ms, ∃ cm, findCol (encodeOne df n1) m = some cm := by
      intro m hm
      rcases hex m hm with ⟨cm, hcm⟩
      have hmne : m ≠ n1 := fun he => hdisj m hm (he ▸ List.mem_cons_self n1 rest)
      exact ⟨cm, findCol_encodeOne_of_ne hmne hcm⟩
    have hrec := ih (encodeOne df n1) ms
      (fun m hm hmr => hdisj m hm (List.mem_cons_of_mem _ hmr)) hex2 n hn
    rw [hrec, hstep, hcn]

theorem go_absent (ns : List String) (dfO : Df) :
    ∀ (df : Df) (m : String),
      m ∉ names df →
      (∀ n ∈ ns, ∃ cn, findCol df n = some cn ∧ findCol dfO n = some cn) →
      ns.Nodup →
      (∀ n ∈ ns, ∀ cn, findCol dfO n = some cn →
        ∀ i, i < cn.values.length + 1 → m ≠ ohName n i) →
      m ∉ names (ns.foldl encodeOne df) := by
  induction ns with
  | nil =>
    intro df m hm _ _ _
    exact hm
  | cons n1 rest ih =>
    intro df m hm hex hnd hgen
    rw [List.foldl_cons]
    rcases hex n1 (List.mem_cons_self _ _) with ⟨c1, hc1, hc1O⟩
    apply ih (encodeOne df n1) m
    · intro hmem
      rcases names_encodeOne_sub hmem with h | ⟨c, i, hfc, hk, hi, rfl⟩
      · exact hm h
      · rw [hc1] at hfc
        have hcc : c1 = c := Option.some_inj.mp hfc
        have hbound : i < c1.values.length + 1 := by
          have hle := catsLen_le c.values
          rw [hcc]
          omega
        exact hgen n1 (List.mem_cons_self _ _) c1 hc1O i hbound rfl
    · intro n hn
      have hne : n ≠ n1 := by
        intro he
        rw [he] at hn
        exact (List.nodup_cons.mp hnd).1 hn
      rcases hex n (List.mem_cons_of_mem _ hn) with ⟨cn, hcn, hcnO⟩
      exact ⟨cn, findCol_encodeOne_of_ne hne hcn, hcnO⟩
    · exact (List.nodup_cons.mp hnd).2
    · intro n hn cn hcn i hi
      exact hgen n (List.mem_cons_of_mem _ hn) cn hcn i hi

theorem self_name_notin_encodeOne {df : Df} {n : String} {c : Col}
    (hf : findCol df n = some c) (hk : nunique c.values ≤ 10)
    (hni : ∀ i, i < (oneHotCategories c.values).length → ohName n i ≠ n) :
    n ∉ names (encodeOne df n) := by
  rw [encodeOne_eq_of_found hf, if_pos hk]
  intro hmm
  unfold names at hmm
  rw [List.map_append] at hmm
  rcases List.mem_append.mp hmm with h | h
  · rcases List.mem_map.mp h with ⟨c2, hc2, he⟩
    have hb := List.of_mem_filter hc2
    rw [he] at hb
    simp at hb
  · rcases List.mem_map.mp h with ⟨c2, hc2, he⟩
    rcases List.mem_map.mp hc2 with ⟨i, hi, rfl⟩
    exact hni i (List.mem_range.mp hi) he

theorem getD_map_lt {l : List Val} {f : Val → Val} {r : ℕ} (hr : r < l.length)
    (d d2 : Val) : (l.map f).getD r d = f (l.getD r d2) := by
  induction l generalizing r with
  | nil => cases hr
  | cons a t ih =>
    cases r with
    | zero => rfl
    | succ r2 => exact ih (Nat.lt_of_succ_lt_succ hr)

/-! ### C6: main theorem -/

theorem getD_mem_of_lt {l : List Val} {r : ℕ} (hr : r < l.length) (d : Val) :
    l.getD r d ∈ l := by
  induction l generalizing r with
  | nil => cases hr
  | cons a t ih =>
    cases r with
    | zero => exact List.mem_cons_self a t
    | succ r2 => exact List.mem_cons_of_mem a (ih (Nat.lt_of_succ_lt_succ hr))

/-- C6, amended: for a text column whose values are strings or missing
(and with generated one-hot names fresh, which the source's `df.join`
presumes — it raises on a duplicate column name), the encoder fits
`K = nunique + 1` categories when the column has a missing entry (NaN is
its own category, sorted last) and `K = nunique` otherwise, and
`encode_categorical`: when the distinct-value count is at most 10,
removes the original column name, adds exactly the columns
`<name>_0 .. <name>_(K-1)` — the `i`-th being the float 0/1 indicator of
the `i`-th fitted category — with no further `<name>_i` column, and the
indicators of each row sum to exactly 1; when the distinct-value count
exceeds 10, it label-encodes the column in place (each value's
`astype(str)` rendering mapped to its index in the sorted distinct
strings — one fixed deterministic order — with dtype `int64`). -/
theorem encode_categorical_spec (df : Df) (c : Col)
    (hnd : (names df).Nodup) (hfresh : freshNames df = true)
    (hmem : c ∈ df) (hobj : c.dtype = Dtype.object)
    (hsm : strOrMissing c.values = true) :
    (oneHotCategories c.values).length
        = nunique c.values + (if c.values.contains Val.missing then 1 else 0)
    ∧ (nunique c.values ≤ 10 →
      c.name ∉ names (encodeCategorical df)
      ∧ (∀ i, i < (oneHotCategories c.values).length →
          oneHotColOf c i ∈ encodeCategorical df)
      ∧ (∀ i, (oneHotCategories c.values).length ≤ i → i < c.values.length + 1 →
          ohName c.name i ∉ names (encodeCategorical df))
      ∧ (∀ r, r < c.values.length →
          ((List.range ((oneHotCategories c.values).length)).map
            (fun i => rowVal (oneHotColOf c i) r)).sum = 1)
      ∧ (∀ i, ∀ v ∈ (oneHotColOf c i).values, v = Val.num 0 ∨ v = Val.num 1))
    ∧ (10 < nunique c.values →
        ({ c with dtype := Dtype.int, values := labelEncodeVals c.values } : Col)
          ∈ encodeCategorical df) := by
  have hfr := freshNames_spec hfresh
  have hcname : c.name ∈ names df := List.mem_map_of_mem Col.name hmem
  have hklen : (oneHotCategories c.values).length ≤ c.values.length + 1 :=
    catsLen_le c.values
  have hfreshc : ∀ i, i < c.values.length + 1 → ohName c.name i ∉ names df :=
    fun i hi => hfr.2 _ (mem_genNames hmem hobj hi)
  have hcat : c.name ∈ catNames df := by
    unfold catNames
    apply List.mem_map_of_mem
    apply List.mem_filter.mpr
    exact ⟨hmem, by simp [hobj]⟩
  have hcatsubnames : ∀ n ∈ catNames df, n ∈ names df := by
    intro n hn
    unfold catNames at hn
    rcases List.mem_map.mp hn with ⟨c2, hc2, rfl⟩
    exact List.mem_map_of_mem Col.name (List.mem_of_mem_filter hc2)
  have hcatnd : (catNames df).Nodup := by
    have hsub : ((df.filter (fun c2 => c2.dtype == Dtype.object)).map (·.name)).Sublist
        (names df) := (List.filter_sublist df).map Col.name
    exact hnd.sublist hsub
  have hexists : ∀ n ∈ catNames df,
      ∃ cn, findCol df n = some cn ∧ cn ∈ df ∧ cn.dtype = Dtype.object ∧ cn.name = n := by
    intro n hn
    unfold catNames at hn
    rcases List.mem_map.mp hn with ⟨c2, hc2, rfl⟩
    have hc2df := List.mem_of_mem_filter hc2
    have hc2obj : c2.dtype = Dtype.object := by
      have hb := List.of_mem_filter hc2
      simpa using hb
    exact ⟨c2, findCol_of_mem hnd hc2df, hc2df, hc2obj, rfl⟩
  rcases List.append_of_mem hcat with ⟨pre, post, hsplit⟩
  have hgo : encodeCategorical df
      = post.foldl encodeOne (encodeOne (pre.foldl encodeOne df) c.name) := by
    unfold encodeCategorical
    rw [hsplit, List.foldl_append, List.foldl_cons]
  have hnd2 : (pre ++ c.name :: post).Nodup := hsplit ▸ hcatnd
  rcases List.nodup_append.mp hnd2 with ⟨hndpre, hndrest, hdisj⟩
  have hnotinpost : c.name ∉ post := (List.nodup_cons.mp hndrest).1
  have hndpost : post.Nodup := (List.nodup_cons.mp hndrest).2
  have hP1 : ∀ n ∈ c.name :: post, n ∉ pre := fun n hn hnp => hdisj hnp hn
  have hmemcat : ∀ n ∈ c.name :: post, n ∈ catNames df := by
    intro n hn
    rw [hsplit]
    exact List.mem_append_right pre hn
  have hmemcatpre : ∀ n ∈ pre, n ∈ catNames df := by
    intro n hn
    rw [hsplit]
    exact List.mem_append_left _ hn
  have hfind1 : ∀ n ∈ c.name :: post,
      findCol (pre.foldl encodeOne df) n = findCol df n := by
    apply go_find_all pre df (c.name :: post) hP1
    intro n hn
    rcases hexists n (hmemcat n hn) with ⟨cn, hcn, _⟩
    exact ⟨cn, hcn⟩
  have hfcol1 : findCol (pre.foldl encodeOne df) c.name = some c := by
    rw [hfind1 c.name (List.mem_cons_self _ _)]
    exact findCol_of_mem hnd hmem
  have hexpost : ∀ n ∈ post,
      ∃ cn, findCol (encodeOne (pre.foldl encodeOne df) c.name) n = some cn
        ∧ findCol df n = some cn := by
    intro n hn
    rcases hexists n (hmemcat n (List.mem_cons_of_mem _ hn)) with ⟨cn, hcn, _⟩
    have hne : n ≠ c.name := by
      intro he
      rw [he] at hn
      exact hnotinpost hn
    have h1 : findCol (pre.foldl encodeOne df) n = some cn := by
      rw [hfind1 n (List.mem_cons_of_mem _ hn)]
      exact hcn
    exact ⟨cn, findCol_encodeOne_of_ne hne h1, hcn⟩
  have hgenpost : ∀ m, m ∈ names df →
      ∀ n ∈ post, ∀ cn, findCol df n = some cn →
        ∀ i, i < cn.values.length + 1 → m ≠ ohName n i := by
    intro m hm n hn cn hcn i hi he
    rcases hexists n (hmemcat n (List.mem_cons_of_mem _ hn)) with ⟨cn2, hcn2, _, hobj2, _⟩
    rw [hcn] at hcn2
    have hcc : cn = cn2 := Option.some_inj.mp hcn2
    have hobjcn : cn.dtype = Dtype.object := by
      rw [hcc]
      exact hobj2
    have hgenm : ohName n i ∈ genNames df := by
      have hg1 := mem_genNames (findCol_mem hcn).1 hobjcn hi
      rwa [(findCol_mem hcn).2] at hg1
    exact hfr.2 _ hgenm (he ▸ hm)
  have hgen_oh : ∀ (L : List String), (∀ n ∈ L, n ∈ catNames df) →
      (∀ n ∈ L, n ≠ c.name) →
      ∀ i, i < c.values.length + 1 →
      ∀ n ∈ L, ∀ cn, findCol df n = some cn → ∀ j, j < cn.values.length + 1 →
        ohName c.name i ≠ ohName n j := by
    intro L hsubcat hnec i hilen n hn cn hcn j hj he
    rcases hexists n (hsubcat n hn) with ⟨cn2, hcn2, _, hobj2, hname2⟩
    rw [hcn] at hcn2
    have hcc : cn = cn2 := Option.some_inj.mp hcn2
    have hobjcn : cn.dtype = Dtype.object := by
      rw [hcc]
      exact hobj2
    have hnne : c.name ≠ cn.name := by
      rw [hcc, hname2]
      exact fun he2 => (hnec n hn) he2.symm
    have he2 : ohName c.name i = ohName cn.name j := by
      rw [(findCol_mem hcn).2]
      exact he
    exact gen_disjoint hfr.1 hmem (findCol_mem hcn).1 hobj hobjcn hnne
      hilen hj he2
  refine ⟨catsLen_eq_general hsm, ?_, ?_⟩
  · intro hk
    refine ⟨?_, ?_, ?_, ?_, ?_⟩
    · -- the original column name is gone
      rw [hgo]
      apply go_absent post df _ c.name
      · apply self_name_notin_encodeOne hfcol1 hk
        intro i hi he
        apply hfreshc i (by omega)
        rw [he]
        exact hcname
      · exact hexpost
      · exact hndpost
      · exact hgenpost c.name hcname
    · -- the k one-hot columns are present
      intro i hik
      rw [hgo]
      apply go_mem_of_preserved post _ (oneHotColOf c i)
      · rw [encodeOne_eq_of_found hfcol1, if_pos hk]
        apply List.mem_append_right
        apply List.mem_map.mpr
        refine ⟨i, List.mem_range.mpr (by omega), rfl⟩
      · intro n hn he
        apply hfreshc i (by omega)
        rw [show (oneHotColOf c i).name = ohName c.name i from rfl] at he
        rw [he]
        exact hcatsubnames n (hmemcat n (List.mem_cons_of_mem _ hn))
    · -- no extra one-hot columns
      intro i hki2 hilen
      have habs1 : ohName c.name i ∉ names (pre.foldl encodeOne df) := by
        apply go_absent pre df df _ (hfreshc i hilen)
        · intro n hn
          rcases hexists n (hmemcatpre n hn) with ⟨cn, hcn, _⟩
          exact ⟨cn, hcn, hcn⟩
        · exact hndpre
        · exact hgen_oh pre hmemcatpre
            (fun n hn he2 => hP1 c.name (List.mem_cons_self _ _) (he2 ▸ hn)) i hilen
      rw [hgo]
      apply go_absent post df _ (ohName c.name i)
      · intro hmm
        rcases names_encodeOne_sub hmm with h | ⟨c2, j, hfc2, hk2, hj, he⟩
        · exact habs1 h
        · rw [hfcol1] at hfc2
          have hcc : c = c2 := Option.some_inj.mp hfc2
          have hjk : j < (oneHotCategories c.values).length := by
            rw [hcc]
            exact hj
          exact gen_inj hfr.1 hmem hobj hilen (by omega) (by omega) he
      · exact hexpost
      · exact hndpost
      · exact hgen_oh post
          (fun n hn => hmemcat n (List.mem_cons_of_mem _ hn))
          (fun n hn he2 => hnotinpost (he2 ▸ hn)) i hilen
    · -- each row has exactly one hot indicator
      intro r hr
      have hrv : ∀ i : ℕ, rowVal (oneHotColOf c i) r
          = (if c.values.getD r Val.missing
                == (oneHotCategories c.values).getD i Val.missing then (1 : ℚ) else 0) := by
        intro i
        unfold rowVal oneHotColOf
        rw [getD_map_lt hr Val.missing Val.missing]
        by_cases hb : (c.values.getD r Val.missing
            == (oneHotCategories c.values).getD i Val.missing) = true
        · rw [if_pos hb, if_pos hb]
        · rw [if_neg hb, if_neg hb]
      rw [List.map_congr_left (fun i _ => hrv i)]
      exact indicator_sum_one (oneHotCategories c.values) _ (oneHotCategories_nodup c.values)
        (mem_oneHotCategories_sm hsm (getD_mem_of_lt hr Val.missing))
    · -- one-hot columns are 0/1-valued
      intro i v hv
      unfold oneHotColOf at hv
      rcases List.mem_map.mp hv with ⟨w, _, rfl⟩
      by_cases hb : (w == (oneHotCategories c.values).getD i Val.missing) = true
      · exact Or.inr (if_pos hb)
      · exact Or.inl (if_neg hb)
  · -- label-encoding branch
    intro hk
    rw [hgo]
    apply go_mem_of_preserved post _ _
    · rw [encodeOne_eq_of_found hfcol1, if_neg (by omega)]
      apply List.mem_map.mpr
      refine ⟨c, (findCol_mem hfcol1).1, ?_⟩
      rw [if_pos (by simp)]
    · intro n hn he
      exact (fun he2 => hnotinpost (he2 ▸ hn) : c.name ≠ n) he

/-- C6, counterexample to the claim as frozen: on a two-category text
column with a missing entry, `encode_categorical` emits three indicator
columns `c_0`, `c_1`, `c_2` — one more than the distinct-value count,
because scikit-learn fits `NaN` as its own category — the third being
hot exactly on the missing row; so the output does not consist of
exactly one new column per distinct value. -/
theorem encode_onehot_missing_counterexample :
    nunique cC6.values = 2 ∧ nunique cC6.values ≤ 10
      ∧ names (encodeCategorical dfC6) = ["c_0", "c_1", "c_2"]
      ∧ (encodeCategorical dfC6).length ≠ nunique cC6.values
      ∧ (oneHotColOf cC6 2).values
          = [Val.num 0, Val.num 0, Val.num 0, Val.num 1] := by
  with_unfolding_all decide

/-- Witness for `encode_categorical_spec` at the concrete frame `dfC6`:
the text column `c` (categories `"a"`, `"b"`, `NaN`) is dropped and
replaced by the one-hot columns `c_0`, `c_1` and `c_2`. -/
theorem encode_categorical_spec_witness :
    (names dfC6).Nodup ∧ freshNames dfC6 = true ∧ cC6 ∈ dfC6
      ∧ cC6.dtype = Dtype.object ∧ strOrMissing cC6.values = true
      ∧ nunique cC6.values ≤ 10
      ∧ (oneHotCategories cC6.values).length
          = nunique cC6.values + (if cC6.values.contains Val.missing then 1 else 0)
      ∧ cC6.name ∉ names (encodeCategorical dfC6)
      ∧ oneHotColOf cC6 0 ∈ encodeCategorical dfC6
      ∧ oneHotColOf cC6 2 ∈ encodeCategorical dfC6 :=
  ⟨by decide, by decide, List.mem_singleton_self cC6, rfl, by decide, by decide,
   (encode_categorical_spec dfC6 cC6 (by decide) (by decide)
      (List.mem_singleton_self cC6) rfl (by decide)).1,
   ((encode_categorical_spec dfC6 cC6 (by decide) (by decide)
      (List.mem_singleton_self cC6) rfl (by decide)).2.1 (by decide)).1,
   ((encode_categorical_spec dfC6 cC6 (by decide) (by decide)
      (List.mem_singleton_self cC6) rfl (by decide)).2.1 (by decide)).2.1 0
     (by with_unfolding_all decide),
   ((encode_categorical_spec dfC6 cC6 (by decide) (by decide)
      (List.mem_singleton_self cC6) rfl (by decide)).2.1 (by decide)).2.1 2
     (by with_unfolding_all decide)⟩

end DataSentinel
